import Mathlib

/-!
# eric: a minimal 9-bit-instruction CPU

A shallow embedding of the emulator `emu.c`: the machine state `struct cpu`,
the ALU, the write-enable strobe, reset, the six execution paths, the
fetch-execute cycle, the loop of `main` and the loading of the ROM; and of the
ALU instruction encoder of the assembler `asm.c`.

Conventions of the embedding.

* Every C integer is a `Nat`.  A narrowing assignment (`uint8_t x = e`) is
  written `e % 256`, the increment of the `uint8_t` instruction pointer is
  `(ip + 1) % 256`, the increment of the `unsigned int` cycle counter is
  `(clk + 1) % 2 ^ 32`.  The ranges of the fields themselves are collected
  in `cpu.wf`.
* The arrays `reg[4]` and `code_rom[64]` are functions of the index.  The
  register file is only ever indexed below `NUM_REGS`.  The source reads
  `code_rom[ip]` without checking the index against the size of the array,
  and the instruction pointer can be 64 or 65 at such a read: the read then
  returns what the memory after the array holds, and the call goes on.  So
  the cells 0..63 of the function `code_rom` are the ROM, and its cells from
  64 on stand for the memory that follows the array; no value is assumed
  for them.  `set_rom` replaces the 64 cells of the ROM and nothing else.
  Which bytes of `struct cpu` follow the array is a matter of layout, which
  is not modelled: the cells from 64 on are kept apart from the fields, and
  no step writes them.  The statements about one step hold for every value
  of those cells; the invariants of a run are proved step by step, from
  every state.
* `abort()` is an `Except.error`; the fault says which check fired.
* The `printf` diagnostics are not modelled.  Their helpers `cpu_reg_name` and
  `cpu_alu_name` abort only on arguments that cannot occur where they are
  called: a register index is a loop index below 4 or a bank base plus a
  1-bit selector, and the op code has passed the range check just before.
* `unsigned int` is taken to be 32 bits wide.
-/

namespace Eric

set_option linter.constructorNameAsVariable false

/-! ## Constants -/

abbrev NUM_REGS : Nat := 4

abbrev ALU_ADD : Nat := 0
abbrev ALU_XOR : Nat := 1
abbrev ALU_AND : Nat := 2
abbrev ALU_OR : Nat := 3
abbrev ALU_NOPX : Nat := 4
abbrev ALU_NOPY : Nat := 5
abbrev ALU_MAX : Nat := 6

abbrev CODE_ADDR_BITS : Nat := 6
abbrev CODE_ROM_SIZE : Nat := 1 <<< CODE_ADDR_BITS
abbrev CODE_ADDR_MASK : Nat := CODE_ROM_SIZE - 1

abbrev REG_X : Nat := 0
abbrev REG_Y : Nat := 2

/-- The modulus of `unsigned int` (32 bits wide). -/
abbrev UINT_MOD : Nat := 2 ^ 32

/-! ## Machine state -/

/-- The machine state, `struct cpu`. -/
structure cpu where
  reg : Nat → Nat
  w_en : Nat
  imm : Nat
  bank_x : Nat
  bank_y : Nat
  hlt : Nat
  alu_op : Nat
  carry : Nat
  zero : Nat
  bus : Nat
  hold : Nat
  ip : Nat
  code_rom : Nat → Nat
  clk : Nat

/-- The ranges that the C types of the fields of `struct cpu` impose. -/
structure cpu.wf (c : cpu) : Prop where
  reg_lt : ∀ i, i < NUM_REGS → c.reg i < 256
  w_en_lt : c.w_en < 16
  imm_lt : c.imm < 2
  bank_x_lt : c.bank_x < 2
  bank_y_lt : c.bank_y < 2
  hlt_lt : c.hlt < 2
  alu_op_lt : c.alu_op < 8
  carry_lt : c.carry < 2
  zero_lt : c.zero < 2
  bus_lt : c.bus < 256
  hold_lt : c.hold < 256
  ip_lt : c.ip < 256
  code_rom_lt : ∀ i, i < CODE_ROM_SIZE → c.code_rom i < 65536
  clk_lt : c.clk < UINT_MOD

/-- The ways a call can stop without returning. -/
inductive Fault where
  /-- The `abort()` of `cpu_fetch_execute`: instruction pointer out of range. -/
  | abort_ip
  /-- The `abort()` of `cpu_op_select` and of `cpu_update_alu`: ALU op out of range. -/
  | abort_alu_op
  deriving DecidableEq, Repr

/-- The read `cpu->code_rom[i]`, which the source does without a bounds check:
it returns for every index, below 64 a cell of the ROM, from 64 on what the
memory after the array holds. -/
def rom_read (c : cpu) (i : Nat) : Nat := c.code_rom i

/-- The state `c` with the 64 cells of its ROM replaced by those of `rom`; the
memory after the array is left as it is. -/
def set_rom (rom : Nat → Nat) (c : cpu) : cpu :=
  { c with code_rom := fun i => if i < CODE_ROM_SIZE then rom i else c.code_rom i }

/-- Body of `cpu_halted`. -/
def cpu_halted (c : cpu) : Nat := c.hlt

/-- Body of `cpu_halt`. -/
def cpu_halt (c : cpu) : cpu := { c with hlt := 1 }

/-! ## ALU -/

/-- The `switch` of `cpu_update_alu`: from the op code and the two inputs to
the pair `(out, carry)`; the `default:` arm aborts. -/
def alu_switch (op in_x in_y : Nat) : Except Fault (Nat × Nat) :=
  match op with
  | 0 =>
    let tmp := (in_x + in_y) % 65536
    .ok (tmp % 256, if tmp &&& 0x100 ≠ 0 then 1 else 0)
  | 1 => .ok ((in_x ^^^ in_y) % 256, 0)
  | 2 => .ok ((in_x &&& in_y) % 256, 0)
  | 3 => .ok ((in_x ||| in_y) % 256, 0)
  | 4 => .ok (in_x % 256, 0)
  | 5 => .ok (in_y % 256, 0)
  | _ => .error .abort_alu_op

/-- Body of `cpu_update_alu`. -/
def cpu_update_alu (c : cpu) : Except Fault cpu :=
  let in_x := c.reg (REG_X + c.bank_x)
  let in_y := c.reg (REG_Y + c.bank_y)
  match alu_switch c.alu_op in_x in_y with
  | .error e => .error e
  | .ok (out, carry) =>
    .ok { c with carry := carry, zero := if out = 0 then 1 else 0, hold := out }

/-! ## Register file and bus -/

/-- The value `in` latched by `cpu_wr_enable`: the code ROM cell at the
instruction pointer in immediate mode, the bus otherwise, as a `uint8_t`. -/
def wr_source (c : cpu) : Nat :=
  (if c.imm ≠ 0 then rom_read c c.ip else c.bus) % 256

/-- The `for` loop of `cpu_wr_enable` over the register indices. -/
def wr_strobe (regs inv : Nat) (reg : Nat → Nat) : Nat → Nat :=
  (List.range NUM_REGS).foldl
    (fun r i => if regs &&& (1 <<< i) ≠ 0 then Function.update r i inv else r) reg

/-- Body of `cpu_wr_enable`. -/
def cpu_wr_enable (c : cpu) (regs : Nat) : Except Fault cpu :=
  cpu_update_alu { c with reg := wr_strobe regs (wr_source c) c.reg }

/-- Body of `cpu_op_select`. -/
def cpu_op_select (c : cpu) (op : Nat) : Except Fault cpu :=
  if op ≥ ALU_MAX then .error .abort_alu_op else .ok { c with alu_op := op }

/-- Body of `cpu_reset`; the argument `~0` of the strobe is `0xff` as a `uint8_t`. -/
def cpu_reset (c : cpu) : Except Fault cpu :=
  let c1 := { c with hlt := 0, clk := 0, ip := 0 }
  match cpu_op_select c1 0 with
  | .error e => .error e
  | .ok c2 => cpu_wr_enable { c2 with bank_x := 0, bank_y := 0, bus := 0 } 0xff

/-! ## Execution paths -/

/-- Body of `cpu_op_condbranch`. -/
def cpu_op_condbranch (c : cpu) (op : Nat) : cpu :=
  let invert := (op &&& (1 <<< 7)) % 256
  let zero := (op &&& (1 <<< 6)) % 256
  let val := (if zero ≠ 0 then c.zero else c.carry) % 256
  if val ^^^ invert ≠ 0 then { c with ip := (op &&& CODE_ADDR_MASK) % 256 } else c

/-- Body of `cpu_op_alu`. -/
def cpu_op_alu (c : cpu) (op : Nat) : Except Fault cpu :=
  let c1 := { c with bank_x := if op &&& (1 <<< 6) ≠ 0 then 1 else 0,
                     bank_y := if op &&& (1 <<< 5) ≠ 0 then 1 else 0 }
  match cpu_op_select c1 (((op >>> 2) &&& 0x7) % 256) with
  | .error e => .error e
  | .ok c2 =>
    match cpu_update_alu c2 with
    | .error e => .error e
    | .ok c3 => cpu_wr_enable { c3 with bus := c3.hold } ((1 <<< (op &&& 0x3)) % 256)

/-- Body of `cpu_op_branch`. -/
def cpu_op_branch (c : cpu) (op : Nat) : cpu :=
  { c with ip := (op &&& CODE_ADDR_MASK) % 256 }

/-- Body of `cpu_op_ldi`. -/
def cpu_op_ldi (c : cpu) (op : Nat) : Except Fault cpu :=
  match cpu_wr_enable { c with imm := 1 } ((op &&& 0xf) % 256) with
  | .error e => .error e
  | .ok c1 => .ok { c1 with imm := 0, ip := (c1.ip + 1) % 256 }

/-- Body of `cpu_op_clc`. -/
def cpu_op_clc (c : cpu) : cpu := { c with carry := 0 }

/-- The dispatch of `cpu_fetch_execute` on the fetched word, run on the state
in which the instruction pointer and the cycle counter are already bumped. -/
def cpu_dispatch (c : cpu) (insn : Nat) : Except Fault cpu :=
  if insn &&& (1 <<< 8) ≠ 0 then .ok (cpu_op_condbranch c (insn &&& 0xff))
  else if insn &&& (1 <<< 7) ≠ 0 then cpu_op_alu c (insn &&& 0x7f)
  else if insn &&& (1 <<< 6) ≠ 0 then .ok (cpu_op_branch c (insn &&& 0x3f))
  else if insn &&& (1 <<< 5) ≠ 0 then .ok (cpu_halt c)
  else if insn &&& (1 <<< 4) ≠ 0 then cpu_op_ldi c (insn &&& 0xf)
  else
    match insn &&& 0x7 with
    | 0 => .ok (cpu_halt c)
    | 1 => .ok (cpu_op_clc c)
    | _ => .ok (cpu_halt c)

/-- Body of `cpu_fetch_execute`.  The guard is
`ip > sizeof(code_rom)/sizeof(*code_rom)` as written, that is `ip > 64`; the
fetch `insn = cpu->code_rom[cpu->ip++]` follows it for every `ip` up to 64. -/
def cpu_fetch_execute (c : cpu) : Except Fault cpu :=
  if c.ip > CODE_ROM_SIZE then .error .abort_ip
  else
    cpu_dispatch { c with ip := (c.ip + 1) % 256, clk := (c.clk + 1) % UINT_MOD }
      (rom_read c c.ip)

/-- The state after `n` calls of `cpu_fetch_execute` in a row. -/
def cpu_steps : Nat → cpu → Except Fault cpu
  | 0, c => .ok c
  | n + 1, c =>
    match cpu_fetch_execute c with
    | .error e => .error e
    | .ok c1 => cpu_steps n c1

/-- The loop of `main`, `while(!cpu_halted(&cpu)) cpu_fetch_execute(&cpu);`, cut
off after `fuel` iterations: `some c` is the halted state the loop leaves with,
`none` says the loop is still running when the fuel is spent. -/
def main_loop : Nat → cpu → Except Fault (Option cpu)
  | 0, c => if cpu_halted c ≠ 0 then .ok (some c) else .ok none
  | fuel + 1, c =>
    if cpu_halted c ≠ 0 then .ok (some c)
    else
      match cpu_fetch_execute c with
      | .error e => .error e
      | .ok c1 => main_loop fuel c1

/-! ## ROM loading

`main` clears the array with `memset` and `open_code_rom` fills it with
`fread(cpu->code_rom, 1, sizeof(cpu->code_rom), f)`.  The array is modelled at
the level of its 128 bytes; how two bytes make a `uint16_t` is the byte order
of the host, a parameter.  Bytes are numbers below 256.  The `ferror` exit of
`open_code_rom` is a failure of the stream, not of its length, and is not
modelled. -/

/-- The `uint16_t` stored as the bytes `b0`, `b1` at increasing addresses. -/
def cell_of_bytes (big_endian : Bool) (b0 b1 : Nat) : Nat :=
  if big_endian then b0 * 256 + b1 else b0 + b1 * 256

/-- The bytes of `code_rom` after `memset(cpu.code_rom, 0, sizeof(cpu.code_rom))`. -/
def memset_code_rom : List Nat := List.replicate (2 * CODE_ROM_SIZE) 0

/-- The buffer `buf` after `fread(buf, 1, sizeof(buf), f)` on a stream that holds
the bytes `input`: as many bytes as the buffer can take are stored from its
start, the rest of the buffer keeps its content. -/
def fread_bytes (buf input : List Nat) : List Nat :=
  input.take buf.length ++ buf.drop (input.take buf.length).length

/-- The return value of that `fread`: the number of bytes stored. -/
def fread_count (buf input : List Nat) : Nat := (input.take buf.length).length

/-- The cells of the array `code_rom` whose bytes are `bytes`. -/
def rom_cells (big_endian : Bool) (bytes : List Nat) : Nat → Nat :=
  fun i => cell_of_bytes big_endian (bytes.getD (2 * i) 0) (bytes.getD (2 * i + 1) 0)

/-- Body of `open_code_rom` on a stream without error, run as `main` does, after
the `memset`; the return value is 1 whatever the length of the input.  The
128 bytes of the array are written, the memory after it is not. -/
def open_code_rom (big_endian : Bool) (c : cpu) (input : List Nat) : cpu :=
  set_rom (rom_cells big_endian (fread_bytes memset_code_rom input)) c

/-! ## Assembler (`asm.c`): the ALU instruction encoder

The tokeniser `easy_explode` is not modelled: `alu_op` takes the operand
tokens it returns, each of them a string (the tokeniser can also leave a NULL
token for an empty operand; that case is outside the model).  A C string is
the list of its characters, and the character at its length is the
terminating NUL. -/

namespace Asm

set_option linter.unusedVariables false

/-- The part of `struct code_rom` that instruction emission uses. -/
structure code_rom where
  code : Nat → Nat
  addr : Nat

/-- Body of `emit_insn`; `none` is the return value 0. -/
def emit_insn (rom : code_rom) (insn : Nat) : Option code_rom :=
  if rom.addr ≥ CODE_ROM_SIZE then none
  else some { code := Function.update rom.code rom.addr (insn % 65536),
              addr := (rom.addr + 1) % 256 }

/-- The character `name[i]` of a C string. -/
def chr (name : List Char) (i : Nat) : Char := name.getD i (Char.ofNat 0)

/-- The table `r[]` of `reg_from_name`: the register names by index. -/
def reg_names : List (List Char) := [['x', '0'], ['x', '1'], ['y', '0'], ['y', '1']]

/-- Body of `reg_from_name`: the index of the first entry of the table equal to
`name`. -/
def reg_from_name (name : List Char) : Option Nat := reg_names.indexOf? name

/-- Body of `nreg_from_name`. -/
def nreg_from_name (r : Char) (name : List Char) : Option Nat :=
  if chr name 0 ≠ r then none
  else
    match (if chr name 1 = '0' then some 0 else if chr name 1 = '1' then some 1 else none) with
    | none => none
    | some num => if chr name 2 = Char.ofNat 0 then some num else none

/-- Body of `xreg_from_name`. -/
def xreg_from_name (name : List Char) : Option Nat := nreg_from_name 'x' name

/-- Body of `yreg_from_name`. -/
def yreg_from_name (name : List Char) : Option Nat := nreg_from_name 'y' name

/-- Body of `alu_op`, on the tokens `tok` of the operand string.  The argument
`op` is used by the source in an error message only. -/
def alu_op (rom : code_rom) (op : Nat) (tok : List (List Char)) : Option code_rom :=
  if tok.length ≠ 3 then none
  else
    match xreg_from_name (tok.getD 0 []) with
    | none => none
    | some x =>
      match yreg_from_name (tok.getD 1 []) with
      | none => none
      | some y =>
        match reg_from_name (tok.getD 2 []) with
        | none => none
        | some reg => emit_insn rom ((1 <<< 7) ||| (x <<< 6) ||| (y <<< 5) ||| reg)

/-- Body of `op_add`. -/
def op_add (rom : code_rom) (operands : List (List Char)) : Option code_rom :=
  alu_op rom ALU_ADD operands

/-- Body of `op_xor`. -/
def op_xor (rom : code_rom) (operands : List (List Char)) : Option code_rom :=
  alu_op rom ALU_XOR operands

/-- Body of `op_and`. -/
def op_and (rom : code_rom) (operands : List (List Char)) : Option code_rom :=
  alu_op rom ALU_AND operands

/-- Body of `op_or`. -/
def op_or (rom : code_rom) (operands : List (List Char)) : Option code_rom :=
  alu_op rom ALU_OR operands

/-- Body of `op_nopx`. -/
def op_nopx (rom : code_rom) (operands : List (List Char)) : Option code_rom :=
  alu_op rom ALU_NOPX operands

/-- Body of `op_nopy`. -/
def op_nopy (rom : code_rom) (operands : List (List Char)) : Option code_rom :=
  alu_op rom ALU_NOPY operands

end Asm
/-! ## Concrete inputs -/

/-- The list `l` as a ROM image: cell `i` holds `l[i]`, the cells past the end of
the list hold 0, and so does the memory after the array. -/
def rom_of (l : List Nat) : Nat → Nat := fun i => l.getD i 0

/-- A state over the ROM `rom` in which every other field is 0. -/
def blank (rom : Nat → Nat) : cpu :=
  { reg := fun _ => 0, w_en := 0, imm := 0, bank_x := 0, bank_y := 0, hlt := 0, alu_op := 0,
    carry := 0, zero := 0, bus := 0, hold := 0, ip := 0, code_rom := rom, clk := 0 }

/-- The program `ldi x0|y0, 0x80 ; jnc 5`: after the load the ALU strobe has
added 0x80 and 0x80, so carry and zero are both 1 when the branch is fetched. -/
def jnc_rom : Nat → Nat := rom_of [0x15, 0x80, 0x185]

/-- The program `ldi x0|y0, 0x80 ; jnz 5`. -/
def jnz_rom : Nat → Nat := rom_of [0x15, 0x80, 0x1c5]

/-- The state `cpu_reset` returns from `blank rom`. -/
def reset_of_blank (rom : Nat → Nat) : cpu :=
  { blank rom with zero := 1, reg := wr_strobe 0xff 0 (blank rom).reg }

/-- The state after the load of 0x80 into x0 and y0 that opens `jnc_rom` and
`jnz_rom`, run from `reset_of_blank rom`. -/
def loaded_0x80 (rom : Nat → Nat) : cpu :=
  { reset_of_blank rom with
    carry := 1, ip := 2, clk := 1, reg := wr_strobe 5 0x80 (reset_of_blank rom).reg }

/-- A ROM that branches to its last cell, which holds a clear-carry. -/
def run_off_end_rom : Nat → Nat := fun i => if i = 0 then 0x7f else if i = 63 then 1 else 0

/-- A load-immediate of x0 in the last ROM cell, about to be fetched; the
memory after the array holds 0x2a. -/
def ldi_in_last_cell : cpu :=
  { blank (fun i => if i = 63 then 0x11 else if i = 64 then 0x2a else 0) with ip := 63 }

/-- The state after the load-immediate fetched from `ldi_in_last_cell`. -/
def ldi_in_last_cell_after : cpu :=
  { ldi_in_last_cell with
    reg := wr_strobe 1 0x2a ldi_in_last_cell.reg, hold := 0x2a, ip := 65, clk := 1 }

/-- A ROM that branches to its last cell, which holds a load-immediate of x0. -/
def ldi_off_end_rom : Nat → Nat := fun i => if i = 0 then 0x7f else if i = 63 then 0x11 else 0

/-- The ROM `run_off_end_rom`, followed in memory by a word that reads as a
load-immediate of x0. -/
def ldi_past_end_rom : Nat → Nat :=
  fun i => if i = 0 then 0x7f else if i = 63 then 1 else if i = 64 then 0x11 else 0

/-- A load-immediate of 0x80 into x0 and y0 about to be fetched, `alu_op` being `or`. -/
def ldi_ok : cpu := { blank (rom_of [0x15, 0x80]) with alu_op := ALU_OR }

/-- The program `add x0, y0 -> x0` followed by the word 7, in a `struct cpu`
whose `imm` bit happens to be 1 before reset (`main` leaves the structure
uninitialised). -/
def imm_left_set : cpu := { blank (rom_of [0x80, 0x07]) with imm := 1 }

/-- The state `cpu_reset` returns from `imm_left_set`. -/
def imm_left_set_reset : cpu :=
  { imm_left_set with zero := 1, carry := 1, reg := wr_strobe 0xff 0x80 imm_left_set.reg }

/-- An ALU word whose op field is 6, about to be fetched. -/
def alu_word_op_6 : cpu := blank (rom_of [0x98])

/-- An ALU word whose op field is 5 (`nopy`), about to be fetched. -/
def alu_word_op_5 : cpu := blank (rom_of [0x94])

/-- The ROM `ldi x0, 5 ; halt` in a structure whose `imm` bit is 0 before reset. -/
def imm_clear_before_reset : cpu := blank (rom_of [0x11, 5])

/-- The same ROM in a structure whose `imm` bit is 1 before reset. -/
def imm_set_before_reset : cpu := { blank (rom_of [0x11, 5]) with imm := 1 }

/-- An add of x1 = 200 and y0 = 100 selected. -/
def add_200_100 : cpu :=
  { blank (rom_of []) with reg := fun i => if i = 1 then 200 else if i = 2 then 100 else 0,
                           bank_x := 1, bank_y := 0, alu_op := ALU_ADD }

/-- An add of 0x80 and 0x80 selected: the sum overflows to 0 with carry. -/
def add_overflow_to_zero : cpu :=
  { blank (rom_of []) with reg := fun _ => 0x80, alu_op := ALU_ADD }

/-- The reserved word 0x20 in cell 0. -/
def reserved_word : cpu := blank (rom_of [0x20])

/-- An unconditional branch to 5 in cell 9, about to be fetched. -/
def branch_at_9 : cpu :=
  { blank (fun i => if i = 9 then 0x45 else 0) with ip := 9, clk := 41, carry := 1 }

/-- A halted state. -/
def halted_state : cpu := { blank (rom_of [0x40]) with hlt := 1, ip := 3, clk := 2 }

/-- The state after the load-immediate fetched from `ldi_ok`. -/
def ldi_ok_after : cpu :=
  { ldi_ok with reg := wr_strobe 5 0x80 ldi_ok.reg, hold := 0x80, ip := 2, clk := 1 }

/-- The state two steps after reset over `run_off_end_rom`: the branch to cell
63 and the clear-carry there are done, and the instruction pointer is 64. -/
def ran_off_end : cpu := { reset_of_blank run_off_end_rom with ip := 64, clk := 2 }

/-- The state `ran_off_end` with the word 0x45, a branch to address 5, in the
memory after the array. -/
def ran_off_end_branch : cpu :=
  { ran_off_end with code_rom := fun i => if i = 64 then 0x45 else run_off_end_rom i }

/-- The reserved word 0x20 about to be fetched at the last value of the cycle
counter. -/
def reserved_word_last_tick : cpu := { blank (rom_of [0x20]) with clk := 4294967295 }

/-- An unconditional branch to 5 in cell 9 about to be fetched at the last value
of the cycle counter. -/
def branch_last_tick : cpu :=
  { blank (fun i => if i = 9 then 0x45 else 0) with ip := 9, clk := 4294967295, carry := 1 }

/-- A clear-carry word with the unused bit 3 set, about to be fetched with the
flags set. -/
def clc_word : cpu := { blank (rom_of [0x09]) with carry := 1, zero := 1, hold := 7 }

/-- The same clear-carry word about to be fetched at the last value of the cycle
counter. -/
def clc_word_last_tick : cpu := { clc_word with clk := 4294967295 }

/-- The ROM of `ldi_ok` with other values in the unused bits 9..15 of its cells. -/
def ldi_ok_high_bits : Nat → Nat := rom_of [0x8015, 0xfe80]

/-- A branch to address 0 in cell 0. -/
def self_branch : cpu := blank (rom_of [0x40])

/-- A ROM file of three bytes: the cell 0x0123 in little-endian order and one
stray byte. -/
def short_rom_file : List Nat := [0x23, 0x01, 0x45]

/-- An assembler ROM with two instructions emitted so far. -/
def asm_rom : Asm.code_rom := { code := fun _ => 0, addr := 2 }

/-! ## Well-formed states -/

/-- A state is well formed when its registers, its scalar fields and its ROM
cells are in the ranges of their C types. -/
theorem wf_intro (c : cpu) (hreg : ∀ i, i < NUM_REGS → c.reg i < 256)
    (hs : c.w_en < 16 ∧ c.imm < 2 ∧ c.bank_x < 2 ∧ c.bank_y < 2 ∧ c.hlt < 2 ∧ c.alu_op < 8 ∧
      c.carry < 2 ∧ c.zero < 2 ∧ c.bus < 256 ∧ c.hold < 256 ∧ c.ip < 256 ∧ c.clk < UINT_MOD)
    (hrom : ∀ i, i < CODE_ROM_SIZE → c.code_rom i < 65536) : c.wf where
  reg_lt := hreg
  w_en_lt := hs.1
  imm_lt := hs.2.1
  bank_x_lt := hs.2.2.1
  bank_y_lt := hs.2.2.2.1
  hlt_lt := hs.2.2.2.2.1
  alu_op_lt := hs.2.2.2.2.2.1
  carry_lt := hs.2.2.2.2.2.2.1
  zero_lt := hs.2.2.2.2.2.2.2.1
  bus_lt := hs.2.2.2.2.2.2.2.2.1
  hold_lt := hs.2.2.2.2.2.2.2.2.2.1
  ip_lt := hs.2.2.2.2.2.2.2.2.2.2.1
  code_rom_lt := hrom
  clk_lt := hs.2.2.2.2.2.2.2.2.2.2.2

/-! ## Bit-level and dispatch lemmas -/

theorem and_bit_eq (w k : Nat) : w &&& (1 <<< k) = if w.testBit k then 2 ^ k else 0 := by
  rw [Nat.one_shiftLeft, Nat.and_two_pow]
  cases w.testBit k <;> simp

theorem and_bit_ne_zero (w k : Nat) : w &&& (1 <<< k) ≠ 0 ↔ w.testBit k = true := by
  rw [and_bit_eq]
  cases w.testBit k <;> simp

theorem and_bit_clear (w k : Nat) (h : w.testBit k = false) : ¬ (w &&& (1 <<< k) ≠ 0) := by
  rw [and_bit_ne_zero, h]; simp

theorem and_mask (w n : Nat) : w &&& (2 ^ n - 1) = w % 2 ^ n :=
  Nat.and_pow_two_sub_one_eq_mod w n

theorem testBit_mod_pow (w n i : Nat) (h : i < n) : (w % 2 ^ n).testBit i = w.testBit i := by
  rw [Nat.testBit_mod_two_pow]; simp [h]

theorem and_0xff (w : Nat) : w &&& 0xff = w % 256 := and_mask w 8
theorem and_0x7f (w : Nat) : w &&& 0x7f = w % 128 := and_mask w 7
theorem and_0x3f (w : Nat) : w &&& 0x3f = w % 64 := and_mask w 6
theorem and_0xf (w : Nat) : w &&& 0xf = w % 16 := and_mask w 4
theorem and_0x7 (w : Nat) : w &&& 0x7 = w % 8 := and_mask w 3
theorem and_0x3 (w : Nat) : w &&& 0x3 = w % 4 := and_mask w 2

theorem wr_strobe_apply (regs inv : Nat) (reg : Nat → Nat) (j : Nat) :
    wr_strobe regs inv reg j = if j < NUM_REGS ∧ regs.testBit j = true then inv else reg j := by
  have hr : List.range NUM_REGS = [0, 1, 2, 3] := by decide
  unfold wr_strobe
  rw [hr]
  show _ = if j < 4 ∧ regs.testBit j = true then inv else reg j
  simp only [List.foldl_cons, List.foldl_nil, and_bit_ne_zero]
  by_cases e0 : j = 0
  · subst e0; split_ifs <;> simp_all [Function.update_apply]
  by_cases e1 : j = 1
  · subst e1; split_ifs <;> simp_all [Function.update_apply]
  by_cases e2 : j = 2
  · subst e2; split_ifs <;> simp_all [Function.update_apply]
  by_cases e3 : j = 3
  · subst e3; split_ifs <;> simp_all [Function.update_apply]
  have hj : ¬ j < 4 := by omega
  split_ifs <;> simp_all [Function.update_apply]

/-- The guard of `cpu_fetch_execute` lets every instruction pointer up to 64
through: the word at that index is fetched, from the memory after the array
when the pointer is 64, and dispatched. -/
theorem fetch_execute_le (c : cpu) (h : c.ip ≤ 64) :
    cpu_fetch_execute c =
      cpu_dispatch { c with ip := c.ip + 1, clk := (c.clk + 1) % UINT_MOD } (c.code_rom c.ip) := by
  unfold cpu_fetch_execute rom_read
  rw [if_neg (show ¬ c.ip > CODE_ROM_SIZE from Nat.not_lt.2 h)]
  have : (c.ip + 1) % 256 = c.ip + 1 := Nat.mod_eq_of_lt (by omega)
  simp only [this]

theorem fetch_execute_eq (c : cpu) (h : c.ip < 64) :
    cpu_fetch_execute c =
      cpu_dispatch { c with ip := c.ip + 1, clk := (c.clk + 1) % UINT_MOD } (c.code_rom c.ip) :=
  fetch_execute_le c (Nat.le_of_lt h)

theorem dispatch_condbranch (c : cpu) (w : Nat) (h8 : w.testBit 8 = true) :
    cpu_dispatch c w = .ok (cpu_op_condbranch c (w &&& 0xff)) := by
  unfold cpu_dispatch
  rw [if_pos ((and_bit_ne_zero w 8).2 h8)]

theorem dispatch_alu (c : cpu) (w : Nat) (h8 : w.testBit 8 = false) (h7 : w.testBit 7 = true) :
    cpu_dispatch c w = cpu_op_alu c (w &&& 0x7f) := by
  unfold cpu_dispatch
  rw [if_neg (and_bit_clear w 8 h8), if_pos ((and_bit_ne_zero w 7).2 h7)]

theorem dispatch_branch (c : cpu) (w : Nat) (h8 : w.testBit 8 = false)
    (h7 : w.testBit 7 = false) (h6 : w.testBit 6 = true) :
    cpu_dispatch c w = .ok (cpu_op_branch c (w &&& 0x3f)) := by
  unfold cpu_dispatch
  rw [if_neg (and_bit_clear w 8 h8), if_neg (and_bit_clear w 7 h7),
    if_pos ((and_bit_ne_zero w 6).2 h6)]

theorem dispatch_reserved (c : cpu) (w : Nat) (h8 : w.testBit 8 = false)
    (h7 : w.testBit 7 = false) (h6 : w.testBit 6 = false) (h5 : w.testBit 5 = true) :
    cpu_dispatch c w = .ok (cpu_halt c) := by
  unfold cpu_dispatch
  rw [if_neg (and_bit_clear w 8 h8), if_neg (and_bit_clear w 7 h7),
    if_neg (and_bit_clear w 6 h6), if_pos ((and_bit_ne_zero w 5).2 h5)]

theorem dispatch_ldi (c : cpu) (w : Nat) (h8 : w.testBit 8 = false)
    (h7 : w.testBit 7 = false) (h6 : w.testBit 6 = false) (h5 : w.testBit 5 = false)
    (h4 : w.testBit 4 = true) :
    cpu_dispatch c w = cpu_op_ldi c (w &&& 0xf) := by
  unfold cpu_dispatch
  rw [if_neg (and_bit_clear w 8 h8), if_neg (and_bit_clear w 7 h7),
    if_neg (and_bit_clear w 6 h6), if_neg (and_bit_clear w 5 h5),
    if_pos ((and_bit_ne_zero w 4).2 h4)]

theorem dispatch_no_operand (c : cpu) (w : Nat) (h8 : w.testBit 8 = false)
    (h7 : w.testBit 7 = false) (h6 : w.testBit 6 = false) (h5 : w.testBit 5 = false)
    (h4 : w.testBit 4 = false) :
    cpu_dispatch c w = if w &&& 0x7 = 1 then .ok (cpu_op_clc c) else .ok (cpu_halt c) := by
  unfold cpu_dispatch
  rw [if_neg (and_bit_clear w 8 h8), if_neg (and_bit_clear w 7 h7),
    if_neg (and_bit_clear w 6 h6), if_neg (and_bit_clear w 5 h5),
    if_neg (and_bit_clear w 4 h4)]
  split <;> simp_all

/-- The rule `cpu_op_condbranch` implements on a word of the conditional-branch
form: the branch is taken when the invert bit is set or the selected flag is 1. -/
theorem condbranch_rule (c : cpu) (w : Nat) (hc : c.carry < 2) (hz : c.zero < 2) :
    cpu_op_condbranch c (w &&& 0xff) =
      if w.testBit 7 = true ∨ (if w.testBit 6 = true then c.zero else c.carry) = 1
      then { c with ip := w &&& 0x3f } else c := by
  unfold cpu_op_condbranch
  have h7 : (w &&& 0xff).testBit 7 = w.testBit 7 := by
    rw [and_0xff]; exact testBit_mod_pow w 8 _ (by omega)
  have h6 : (w &&& 0xff).testBit 6 = w.testBit 6 := by
    rw [and_0xff]; exact testBit_mod_pow w 8 _ (by omega)
  have hm : ((w &&& 0xff) &&& CODE_ADDR_MASK) % 256 = w &&& 0x3f := by
    show ((w &&& 0xff) &&& 0x3f) % 256 = w &&& 0x3f
    rw [and_0xff, and_0x3f, and_0x3f]
    omega
  simp only [and_bit_eq, h7, h6, hm]
  have hcc : c.carry = 0 ∨ c.carry = 1 := by omega
  have hzz : c.zero = 0 ∨ c.zero = 1 := by omega
  cases w.testBit 7 <;> cases w.testBit 6 <;> rcases hcc with hcc | hcc <;>
    rcases hzz with hzz | hzz <;> simp [hcc, hzz]

theorem fetch_condbranch (s : cpu) (hip : s.ip < 64) (hc : s.carry < 2) (hz : s.zero < 2)
    (h8 : (s.code_rom s.ip).testBit 8 = true) :
    cpu_fetch_execute s = .ok
      (if (s.code_rom s.ip).testBit 7 = true ∨
          (if (s.code_rom s.ip).testBit 6 = true then s.zero else s.carry) = 1
       then { s with ip := s.code_rom s.ip &&& 0x3f, clk := (s.clk + 1) % UINT_MOD }
       else { s with ip := s.ip + 1, clk := (s.clk + 1) % UINT_MOD }) := by
  rw [fetch_execute_eq s hip, dispatch_condbranch _ _ h8,
    condbranch_rule { s with ip := s.ip + 1, clk := (s.clk + 1) % UINT_MOD } (s.code_rom s.ip) hc hz]

theorem update_alu_ok (c d : cpu) (h : cpu_update_alu c = .ok d) :
    ∃ out carry, alu_switch c.alu_op (c.reg (REG_X + c.bank_x)) (c.reg (REG_Y + c.bank_y))
        = .ok (out, carry) ∧
      d = { c with carry := carry, zero := if out = 0 then 1 else 0, hold := out } := by
  unfold cpu_update_alu at h
  simp only at h
  split at h
  · cases h
  · next out carry heq =>
    refine ⟨out, carry, heq, ?_⟩
    cases h
    rfl

theorem wr_enable_ok (c d : cpu) (regs : Nat) (h : cpu_wr_enable c regs = .ok d) :
    ∃ inv, wr_source c = inv ∧
      cpu_update_alu { c with reg := wr_strobe regs inv c.reg } = .ok d :=
  ⟨_, rfl, h⟩

theorem update_alu_ip (c d : cpu) (h : cpu_update_alu c = .ok d) : d.ip = c.ip := by
  obtain ⟨_, _, _, rfl⟩ := update_alu_ok c d h
  rfl

theorem wr_enable_ip (c d : cpu) (regs : Nat) (h : cpu_wr_enable c regs = .ok d) :
    d.ip = c.ip := by
  obtain ⟨inv, _, h2⟩ := wr_enable_ok c d regs h
  exact update_alu_ip { c with reg := wr_strobe regs inv c.reg } d h2

theorem op_select_ok (c d : cpu) (op : Nat) (h : cpu_op_select c op = .ok d) :
    op < ALU_MAX ∧ d = { c with alu_op := op } := by
  unfold cpu_op_select at h
  split at h
  · cases h
  · next hlt => cases h; exact ⟨by omega, rfl⟩

theorem op_alu_ip (c d : cpu) (op : Nat) (h : cpu_op_alu c op = .ok d) : d.ip = c.ip := by
  unfold cpu_op_alu at h
  simp only at h
  split at h
  · cases h
  · next c2 h2 =>
    split at h
    · cases h
    · next c3 h3 =>
      obtain ⟨_, rfl⟩ := op_select_ok _ _ _ h2
      rw [wr_enable_ip _ _ _ h, ← update_alu_ip _ _ h3] 

theorem op_ldi_ip (c d : cpu) (op : Nat) (h : cpu_op_ldi c op = .ok d) :
    d.ip = (c.ip + 1) % 256 := by
  unfold cpu_op_ldi at h
  split at h
  · cases h
  · next c1 h1 =>
    cases h
    have hip := wr_enable_ip _ _ _ h1
    simp only at hip ⊢
    rw [hip]

theorem and_mask_lt (w : Nat) : (w &&& CODE_ADDR_MASK) % 256 < 64 := by
  show (w &&& 0x3f) % 256 < 64
  rw [and_0x3f]; omega

theorem condbranch_ip_le (c : cpu) (op : Nat) (hc : c.ip ≤ 65) :
    (cpu_op_condbranch c op).ip ≤ 65 := by
  unfold cpu_op_condbranch
  simp only
  split_ifs
  all_goals first | exact Nat.le_of_lt (Nat.lt_succ_of_lt (and_mask_lt _)) | exact hc

/-- After the dispatch the instruction pointer is a masked branch target, the
pointer as the fetch left it, or that pointer plus one (load immediate). -/
theorem dispatch_ip_le (c d : cpu) (w : Nat) (hc : c.ip ≤ 65) (h : cpu_dispatch c w = .ok d) :
    d.ip ≤ 66 := by
  cases h8 : w.testBit 8
  swap
  · rw [dispatch_condbranch c w h8] at h
    cases h
    exact Nat.le_succ_of_le (condbranch_ip_le _ _ hc)
  cases h7 : w.testBit 7
  swap
  · rw [dispatch_alu c w h8 h7] at h
    rw [op_alu_ip _ _ _ h]; omega
  cases h6 : w.testBit 6
  swap
  · rw [dispatch_branch c w h8 h7 h6] at h
    cases h
    have := and_mask_lt (w &&& 0x3f)
    show ((w &&& 0x3f) &&& CODE_ADDR_MASK) % 256 ≤ 66
    omega
  cases h5 : w.testBit 5
  swap
  · rw [dispatch_reserved c w h8 h7 h6 h5] at h
    cases h
    show c.ip ≤ 66
    omega
  cases h4 : w.testBit 4
  swap
  · rw [dispatch_ldi c w h8 h7 h6 h5 h4] at h
    have := op_ldi_ip _ _ _ h
    omega
  rw [dispatch_no_operand c w h8 h7 h6 h5 h4] at h
  split at h <;> cases h <;> (show c.ip ≤ 66; omega)

/-- A call of `cpu_fetch_execute` that returns was let through by the guard. -/
theorem fetch_execute_ok_ip (c d : cpu) (h : cpu_fetch_execute c = .ok d) : c.ip ≤ 64 := by
  by_contra hlt
  unfold cpu_fetch_execute at h
  rw [if_pos (show c.ip > CODE_ROM_SIZE from Nat.lt_of_not_le hlt)] at h
  cases h

theorem fetch_execute_ip_le (c d : cpu) (h : cpu_fetch_execute c = .ok d) : d.ip ≤ 66 := by
  have hle := fetch_execute_ok_ip c d h
  rw [fetch_execute_le c hle] at h
  exact dispatch_ip_le _ _ _ (by show c.ip + 1 ≤ 65; omega) h

theorem steps_ip_le (n : Nat) : ∀ c d : cpu, c.ip ≤ 66 → cpu_steps n c = .ok d → d.ip ≤ 66 := by
  induction n with
  | zero =>
    intro c d hc h
    unfold cpu_steps at h
    cases h
    exact hc
  | succ n ih =>
    intro c d _ h
    unfold cpu_steps at h
    split at h
    · cases h
    · next c1 h1 => exact ih c1 d (fetch_execute_ip_le c c1 h1) h

theorem op_select_lt (c : cpu) (op : Nat) (h : op < ALU_MAX) :
    cpu_op_select c op = .ok { c with alu_op := op } := by
  unfold cpu_op_select
  rw [if_neg (by omega)]

theorem wr_source_bus (c : cpu) (h : c.imm = 0) : wr_source c = c.bus % 256 := by
  unfold wr_source
  rw [if_neg (by simp [h])]

theorem wr_source_rom (c : cpu) (h : c.imm ≠ 0) : wr_source c = c.code_rom c.ip % 256 := by
  unfold wr_source rom_read
  rw [if_pos h]

theorem wr_enable_eq (c : cpu) (regs inv : Nat) (h : wr_source c = inv) :
    cpu_wr_enable c regs = cpu_update_alu { c with reg := wr_strobe regs inv c.reg } := by
  unfold cpu_wr_enable
  rw [h]

theorem update_alu_eq (c : cpu) (out carry : Nat)
    (h : alu_switch c.alu_op (c.reg (REG_X + c.bank_x)) (c.reg (REG_Y + c.bank_y))
      = .ok (out, carry)) :
    cpu_update_alu c =
      .ok { c with carry := carry, zero := if out = 0 then 1 else 0, hold := out } := by
  unfold cpu_update_alu
  simp only [h]

theorem reset_eq (c : cpu) (v : Nat) (hv : v = if c.imm ≠ 0 then c.code_rom 0 % 256 else 0) :
    cpu_reset c = .ok
      { c with
        hlt := 0, clk := 0, ip := 0, alu_op := 0, bank_x := 0, bank_y := 0, bus := 0,
        reg := wr_strobe 0xff v c.reg,
        carry := if ((v + v) % 65536) &&& 0x100 ≠ 0 then 1 else 0,
        zero := if (v + v) % 65536 % 256 = 0 then 1 else 0,
        hold := (v + v) % 65536 % 256 } := by
  have hsrc : ∀ c1 : cpu, c1.imm = c.imm → c1.code_rom = c.code_rom → c1.ip = 0 → c1.bus = 0 →
      wr_source c1 = v := by
    intro c1 e1 e2 e3 e4
    by_cases hi : c.imm ≠ 0
    · rw [wr_source_rom c1 (e1 ▸ hi), hv, if_pos hi, e2, e3]
    · rw [wr_source_bus c1 (by rw [e1]; simpa using hi), hv, if_neg hi, e4]
  have h0 : wr_strobe 0xff v c.reg 0 = v := by
    rw [wr_strobe_apply, if_pos ⟨by decide, by decide⟩]
  have h2 : wr_strobe 0xff v c.reg 2 = v := by
    rw [wr_strobe_apply, if_pos ⟨by decide, by decide⟩]
  unfold cpu_reset
  dsimp only
  rw [op_select_lt _ 0 (by decide)]
  dsimp only
  refine (wr_enable_eq _ _ v (hsrc _ ?_ ?_ ?_ ?_)).trans ?_
  iterate 4 rfl
  refine (update_alu_eq _ ((v + v) % 65536 % 256)
    (if ((v + v) % 65536) &&& 0x100 ≠ 0 then 1 else 0) ?_).trans ?_
  · show alu_switch 0 (wr_strobe 0xff v c.reg 0) (wr_strobe 0xff v c.reg 2) = _
    rw [h0, h2]
    rfl
  · rfl

theorem alu_switch_lt (op x y : Nat) (h : op < ALU_MAX) :
    ∃ out carry, alu_switch op x y = .ok (out, carry) := by
  have h6 : op < 6 := h
  interval_cases op <;> exact ⟨_, _, rfl⟩

theorem alu_switch_out_lt (op x y out carry : Nat) (h : alu_switch op x y = .ok (out, carry)) :
    out < 256 := by
  unfold alu_switch at h
  split at h <;> simp only [Except.ok.injEq, Prod.mk.injEq, reduceCtorEq] at h <;>
    (obtain ⟨rfl, -⟩ := h; exact Nat.mod_lt _ (by decide))

theorem update_alu_lt (c : cpu) (h : c.alu_op < ALU_MAX) :
    ∃ out carry,
      cpu_update_alu c =
        .ok { c with carry := carry, zero := if out = 0 then 1 else 0, hold := out } := by
  obtain ⟨out, carry, hs⟩ :=
    alu_switch_lt c.alu_op (c.reg (REG_X + c.bank_x)) (c.reg (REG_Y + c.bank_y)) h
  exact ⟨out, carry, update_alu_eq c out carry hs⟩

theorem testBit_and_0xf (w i : Nat) :
    (((w &&& 0xf) &&& 0xf) % 256).testBit i = (w &&& 0xf).testBit i := by
  rw [and_0xf, and_0xf]
  have : w % 16 % 16 % 256 = w % 16 := by omega
  rw [this]

theorem op_ldi_eq (c : cpu) (w : Nat) (hop : c.alu_op < ALU_MAX) :
    ∃ out carry, cpu_op_ldi c (w &&& 0xf) = .ok
      { c with
        reg := wr_strobe (((w &&& 0xf) &&& 0xf) % 256) (c.code_rom c.ip % 256) c.reg,
        carry := carry, zero := if out = 0 then 1 else 0, hold := out,
        imm := 0, ip := (c.ip + 1) % 256 } := by
  have hsrc : wr_source { c with imm := 1 } = c.code_rom c.ip % 256 :=
    wr_source_rom { c with imm := 1 } Nat.one_ne_zero
  obtain ⟨out, carry, hu⟩ := update_alu_lt
    { c with imm := 1,
             reg := wr_strobe (((w &&& 0xf) &&& 0xf) % 256) (c.code_rom c.ip % 256) c.reg } hop
  refine ⟨out, carry, ?_⟩
  unfold cpu_op_ldi
  rw [wr_enable_eq _ _ _ hsrc]
  dsimp only
  rw [hu]

theorem op_select_ge (c : cpu) (op : Nat) (h : ALU_MAX ≤ op) :
    cpu_op_select c op = .error .abort_alu_op := by
  unfold cpu_op_select
  rw [if_pos h]

theorem op_field_eq (w : Nat) : (((w &&& 0x7f) >>> 2) &&& 0x7) % 256 = (w >>> 2) &&& 0x7 := by
  rw [and_0x7f, and_0x7, and_0x7, Nat.shiftRight_eq_div_pow, Nat.shiftRight_eq_div_pow]
  omega

/-- The ALU path when the op code is in range: the state after the first ALU
evaluation and the bus drive, handed to the write-enable strobe. -/
theorem op_alu_eq (c : cpu) (op out carry : Nat) (hop : ((op >>> 2) &&& 0x7) % 256 < ALU_MAX)
    (h : alu_switch (((op >>> 2) &&& 0x7) % 256)
        (c.reg (REG_X + if op &&& (1 <<< 6) ≠ 0 then 1 else 0))
        (c.reg (REG_Y + if op &&& (1 <<< 5) ≠ 0 then 1 else 0)) = .ok (out, carry)) :
    cpu_op_alu c op =
      cpu_wr_enable
        { c with bank_x := if op &&& (1 <<< 6) ≠ 0 then 1 else 0,
                 bank_y := if op &&& (1 <<< 5) ≠ 0 then 1 else 0,
                 alu_op := ((op >>> 2) &&& 0x7) % 256,
                 carry := carry, zero := if out = 0 then 1 else 0, hold := out, bus := out }
        ((1 <<< (op &&& 0x3)) % 256) := by
  unfold cpu_op_alu
  dsimp only
  rw [op_select_lt _ _ hop]
  dsimp only
  rw [update_alu_eq _ out carry h]

theorem op_alu_abort (c : cpu) (op : Nat) (hop : ALU_MAX ≤ ((op >>> 2) &&& 0x7) % 256) :
    cpu_op_alu c op = .error .abort_alu_op := by
  unfold cpu_op_alu
  dsimp only
  rw [op_select_ge _ _ hop]

/-- The strobe returns whenever the ALU op is in range. -/
theorem wr_enable_lt (c : cpu) (regs : Nat) (hop : c.alu_op < ALU_MAX) :
    ∃ t, cpu_wr_enable c regs = .ok t := by
  obtain ⟨out, carry, hu⟩ :=
    update_alu_lt { c with reg := wr_strobe regs (wr_source c) c.reg } hop
  exact ⟨_, hu⟩

/-- The ALU path returns whenever the op field is in range. -/
theorem op_alu_lt (c : cpu) (op : Nat) (hop : ((op >>> 2) &&& 0x7) % 256 < ALU_MAX) :
    ∃ t, cpu_op_alu c op = .ok t := by
  obtain ⟨out, carry, h⟩ := alu_switch_lt (((op >>> 2) &&& 0x7) % 256)
    (c.reg (REG_X + if op &&& (1 <<< 6) ≠ 0 then 1 else 0))
    (c.reg (REG_Y + if op &&& (1 <<< 5) ≠ 0 then 1 else 0)) hop
  rw [op_alu_eq c op out carry hop h]
  exact wr_enable_lt _ _ hop

theorem add_carry_bit (x y : Nat) (hx : x ≤ 255) (hy : y ≤ 255) :
    (if ((x + y) % 65536) &&& 0x100 ≠ 0 then 1 else 0) = if 256 ≤ x + y then 1 else 0 := by
  have h : (x + y) % 65536 = x + y := Nat.mod_eq_of_lt (by omega)
  rw [h]
  have hb : (x + y) &&& 0x100 ≠ 0 ↔ (x + y).testBit 8 = true := and_bit_ne_zero (x + y) 8
  have ht : (x + y).testBit 8 = decide ((x + y) / 2 ^ 8 % 2 = 1) := Nat.testBit_to_div_mod
  by_cases h256 : 256 ≤ x + y
  · rw [if_pos h256, if_pos]
    rw [hb, ht]
    simp only [decide_eq_true_eq]
    omega
  · rw [if_neg h256, if_neg]
    rw [hb, ht]
    simp only [decide_eq_true_eq]
    omega

theorem update_alu_hlt (c d : cpu) (h : cpu_update_alu c = .ok d) : d.hlt = c.hlt := by
  obtain ⟨_, _, _, rfl⟩ := update_alu_ok c d h
  rfl

theorem wr_enable_hlt (c d : cpu) (regs : Nat) (h : cpu_wr_enable c regs = .ok d) :
    d.hlt = c.hlt := by
  obtain ⟨inv, _, h2⟩ := wr_enable_ok c d regs h
  exact update_alu_hlt { c with reg := wr_strobe regs inv c.reg } d h2

theorem op_alu_hlt (c d : cpu) (op : Nat) (h : cpu_op_alu c op = .ok d) : d.hlt = c.hlt := by
  unfold cpu_op_alu at h
  simp only at h
  split at h
  · cases h
  · next c2 h2 =>
    split at h
    · cases h
    · next c3 h3 =>
      obtain ⟨_, rfl⟩ := op_select_ok _ _ _ h2
      rw [wr_enable_hlt _ _ _ h, ← update_alu_hlt _ _ h3]

theorem op_ldi_hlt (c d : cpu) (op : Nat) (h : cpu_op_ldi c op = .ok d) : d.hlt = c.hlt := by
  unfold cpu_op_ldi at h
  split at h
  · cases h
  · next c1 h1 =>
    cases h
    exact wr_enable_hlt { c with imm := 1 } c1 _ h1

theorem condbranch_hlt (c : cpu) (op : Nat) : (cpu_op_condbranch c op).hlt = c.hlt := by
  unfold cpu_op_condbranch
  simp only
  split_ifs <;> rfl

theorem branch_mask (w : Nat) : ((w &&& 0x3f) &&& CODE_ADDR_MASK) % 256 = w &&& 0x3f := by
  show ((w &&& 0x3f) &&& 0x3f) % 256 = w &&& 0x3f
  rw [and_0x3f, and_0x3f]
  omega

theorem reset_fields (c : cpu) :
    ∃ r, cpu_reset c = .ok r ∧ r.hlt = 0 ∧ r.clk = 0 ∧ r.ip = 0 ∧ r.code_rom = c.code_rom ∧
      r.alu_op = 0 ∧ r.bank_x = 0 ∧ r.bank_y = 0 ∧ r.bus = 0 ∧ r.imm = c.imm :=
  ⟨_, reset_eq c _ rfl, rfl, rfl, rfl, rfl, rfl, rfl, rfl, rfl, rfl⟩

theorem wr_strobe_one_hot (d v : Nat) (reg : Nat → Nat) (hd : d < 4) :
    wr_strobe ((1 <<< d) % 256) v reg = Function.update reg d v := by
  funext j
  rw [wr_strobe_apply, Function.update_apply]
  have h1 : (1 <<< d) % 256 = 2 ^ d := by
    rw [Nat.one_shiftLeft]
    interval_cases d <;> rfl
  rw [h1, Nat.testBit_two_pow]
  by_cases hj : j = d
  · subst hj
    simp [hd]
  · have : ¬ d = j := fun h => hj h.symm
    simp [hj, this]

theorem bit_sel (w k : Nat) : (if w &&& (1 <<< k) ≠ 0 then 1 else 0) = (w >>> k) &&& 1 := by
  rw [Nat.and_one_is_mod, Nat.shiftRight_eq_div_pow]
  have h := and_bit_ne_zero w k
  have ht : w.testBit k = decide (w / 2 ^ k % 2 = 1) := Nat.testBit_to_div_mod
  by_cases hb : w.testBit k = true
  · rw [if_pos (h.2 hb)]
    rw [ht] at hb
    simp only [decide_eq_true_eq] at hb
    exact hb.symm
  · rw [if_neg (fun hc => hb (h.1 hc))]
    rw [ht] at hb
    simp only [decide_eq_true_eq] at hb
    omega

theorem bit_sel_0x7f (w k : Nat) (hk : k < 7) :
    (if (w &&& 0x7f) &&& (1 <<< k) ≠ 0 then 1 else 0) = (w >>> k) &&& 1 := by
  rw [bit_sel, Nat.and_one_is_mod, Nat.and_one_is_mod]
  have e1 : (w &&& 0x7f).testBit k = w.testBit k := by
    rw [and_0x7f]; exact testBit_mod_pow w 7 k hk
  rw [Nat.testBit_to_div_mod, Nat.testBit_to_div_mod] at e1
  rw [Nat.shiftRight_eq_div_pow, Nat.shiftRight_eq_div_pow]
  have h2 : ∀ n : Nat, n % 2 = 0 ∨ n % 2 = 1 := fun n => by omega
  rcases h2 ((w &&& 0x7f) / 2 ^ k) with a | a <;> rcases h2 (w / 2 ^ k) with b | b <;>
    simp_all

theorem dest_field_eq (w : Nat) : (w &&& 0x7f) &&& 0x3 = w &&& 0x3 := by
  rw [and_0x7f, and_0x3, and_0x3]
  omega

/-- The ALU instruction, in full.  The first ALU evaluation is driven on the
bus; the strobe writes the destination register from the bus when
immediate-source mode is off, and from the ROM cell after the instruction
when it is on; hold, carry and zero come from the second evaluation, on the
registers after the write. -/
theorem alu_step (s : cpu) (w x y c d : Nat) (hw : s.code_rom s.ip = w)
    (hip : s.ip < 64)
    (h8 : w.testBit 8 = false) (h7 : w.testBit 7 = true)
    (hx : x = (w >>> 6) &&& 1) (hy : y = (w >>> 5) &&& 1) (hc : c = (w >>> 2) &&& 0x7)
    (hd : d = w &&& 0x3) (hc6 : c < 6) :
    ∃ out carry out2 carry2 v,
      alu_switch c (s.reg (REG_X + x)) (s.reg (REG_Y + y)) = .ok (out, carry) ∧
      v = (if s.imm ≠ 0 then s.code_rom (s.ip + 1) % 256 else out) ∧
      alu_switch c (Function.update s.reg d v (REG_X + x))
        (Function.update s.reg d v (REG_Y + y)) = .ok (out2, carry2) ∧
      cpu_fetch_execute s = .ok
        { s with bank_x := x, bank_y := y, alu_op := c,
                 reg := Function.update s.reg d v, bus := out,
                 hold := out2, carry := carry2, zero := if out2 = 0 then 1 else 0,
                 ip := s.ip + 1, clk := (s.clk + 1) % UINT_MOD } := by
  subst hw
  have hd4 : d < 4 := by rw [hd, and_0x3]; omega
  obtain ⟨out, carry, h1⟩ := alu_switch_lt c (s.reg (REG_X + x)) (s.reg (REG_Y + y)) hc6
  obtain ⟨out2, carry2, h2⟩ := alu_switch_lt c
    (Function.update s.reg d (if s.imm ≠ 0 then s.code_rom (s.ip + 1) % 256 else out) (REG_X + x))
    (Function.update s.reg d (if s.imm ≠ 0 then s.code_rom (s.ip + 1) % 256 else out) (REG_Y + y))
    hc6
  have hout : out % 256 = out := Nat.mod_eq_of_lt (alu_switch_out_lt _ _ _ _ _ h1)
  refine ⟨out, carry, out2, carry2, _, h1, rfl, h2, ?_⟩
  have ex := bit_sel_0x7f (s.code_rom s.ip) 6 (by decide)
  have ey := bit_sel_0x7f (s.code_rom s.ip) 5 (by decide)
  have ec := op_field_eq (s.code_rom s.ip)
  have ed := dest_field_eq (s.code_rom s.ip)
  rw [← hx] at ex
  rw [← hy] at ey
  rw [← hc] at ec
  rw [← hd] at ed
  rw [fetch_execute_eq s hip, dispatch_alu _ _ h8 h7]
  rw [op_alu_eq _ _ out carry (by rw [ec]; exact hc6) (by rw [ex, ey, ec]; exact h1)]
  rw [ex, ey, ec, ed]
  have hs : ∀ c1 : cpu, c1.imm = s.imm → c1.code_rom = s.code_rom → c1.ip = s.ip + 1 →
      c1.bus = out →
      wr_source c1 = (if s.imm ≠ 0 then s.code_rom (s.ip + 1) % 256 else out) := by
    intro c1 e1 e2 e3 e4
    by_cases hi : s.imm ≠ 0
    · rw [wr_source_rom c1 (e1 ▸ hi), if_pos hi, e2, e3]
    · rw [wr_source_bus c1 (by rw [e1]; simpa using hi), if_neg hi, e4, hout]
  refine (wr_enable_eq _ _ _ (hs _ ?_ ?_ ?_ ?_)).trans ?_
  iterate 4 rfl
  dsimp only
  rw [wr_strobe_one_hot d _ s.reg hd4]
  exact update_alu_eq _ out2 carry2 h2

/-- The unconditional branch: the instruction pointer is overwritten with the
low 6 bits of the word, the cycle counter is bumped, nothing else changes. -/
theorem fetch_branch (s : cpu) (hip : s.ip < 64)
    (h8 : (s.code_rom s.ip).testBit 8 = false) (h7 : (s.code_rom s.ip).testBit 7 = false)
    (h6 : (s.code_rom s.ip).testBit 6 = true) :
    cpu_fetch_execute s =
      .ok { s with ip := s.code_rom s.ip &&& 0x3f, clk := (s.clk + 1) % UINT_MOD } := by
  rw [fetch_execute_eq s hip, dispatch_branch _ _ h8 h7 h6]
  unfold cpu_op_branch
  rw [branch_mask]

/-- The reserved word, the halt word and the invalid no-operand words: the
machine halts, the instruction pointer and the cycle counter are bumped,
nothing else changes. -/
theorem fetch_halt (s : cpu) (hip : s.ip < 64)
    (h8 : (s.code_rom s.ip).testBit 8 = false) (h7 : (s.code_rom s.ip).testBit 7 = false)
    (h6 : (s.code_rom s.ip).testBit 6 = false)
    (h : (s.code_rom s.ip).testBit 5 = true ∨
      ((s.code_rom s.ip).testBit 5 = false ∧ (s.code_rom s.ip).testBit 4 = false ∧
        s.code_rom s.ip &&& 0x7 ≠ 1)) :
    cpu_fetch_execute s =
      .ok { s with hlt := 1, ip := s.ip + 1, clk := (s.clk + 1) % UINT_MOD } := by
  rcases h with h5 | ⟨h5, h4, hne⟩
  · rw [fetch_execute_eq s hip, dispatch_reserved _ _ h8 h7 h6 h5]
    rfl
  · rw [fetch_execute_eq s hip, dispatch_no_operand _ _ h8 h7 h6 h5 h4, if_neg hne]
    rfl

/-- A completed step from a state that is not halted ends halted only on a
word with bits 8, 7 and 6 clear that is reserved, halt or invalid. -/
theorem halted_after_step (s t : cpu) (hh : s.hlt = 0) (hip : s.ip < 64)
    (ht : cpu_fetch_execute s = .ok t) (hlt : t.hlt = 1) :
    (s.code_rom s.ip).testBit 8 = false ∧ (s.code_rom s.ip).testBit 7 = false ∧
      (s.code_rom s.ip).testBit 6 = false ∧
      ((s.code_rom s.ip).testBit 5 = true ∨
        ((s.code_rom s.ip).testBit 5 = false ∧ (s.code_rom s.ip).testBit 4 = false ∧
          s.code_rom s.ip &&& 0x7 ≠ 1)) := by
  rw [fetch_execute_eq s hip] at ht
  have hne : (0 : Nat) ≠ 1 := by decide
  cases h8 : (s.code_rom s.ip).testBit 8
  swap
  · rw [dispatch_condbranch _ _ h8] at ht
    cases ht
    rw [condbranch_hlt] at hlt
    exact absurd (hh.symm.trans hlt) hne
  cases h7 : (s.code_rom s.ip).testBit 7
  swap
  · rw [dispatch_alu _ _ h8 h7] at ht
    rw [op_alu_hlt _ _ _ ht] at hlt
    exact absurd (hh.symm.trans hlt) hne
  cases h6 : (s.code_rom s.ip).testBit 6
  swap
  · rw [dispatch_branch _ _ h8 h7 h6] at ht
    cases ht
    exact absurd (hh.symm.trans hlt) hne
  cases h5 : (s.code_rom s.ip).testBit 5
  swap
  · exact ⟨rfl, rfl, rfl, Or.inl rfl⟩
  cases h4 : (s.code_rom s.ip).testBit 4
  swap
  · rw [dispatch_ldi _ _ h8 h7 h6 h5 h4] at ht
    rw [op_ldi_hlt _ _ _ ht] at hlt
    exact absurd (hh.symm.trans hlt) hne
  refine ⟨rfl, rfl, rfl, Or.inr ⟨rfl, rfl, fun h1 => ?_⟩⟩
  rw [dispatch_no_operand _ _ h8 h7 h6 h5 h4, if_pos h1] at ht
  cases ht
  exact absurd (hh.symm.trans hlt) hne

/-- The load immediate with an ALU op in range: the strobe writes the low 8 bits
of the next cell to the registers of the mask, the ALU is evaluated again,
and the pointer ends two cells on.  For a word in cell 63 the next cell is
the memory after the array, and the pointer ends at 65. -/
theorem fetch_ldi (s : cpu) (hop : s.alu_op < ALU_MAX) (hip : s.ip ≤ 64)
    (h8 : (s.code_rom s.ip).testBit 8 = false) (h7 : (s.code_rom s.ip).testBit 7 = false)
    (h6 : (s.code_rom s.ip).testBit 6 = false) (h5 : (s.code_rom s.ip).testBit 5 = false)
    (h4 : (s.code_rom s.ip).testBit 4 = true) :
    ∃ out carry, cpu_fetch_execute s = .ok
      { s with
        reg := wr_strobe (((s.code_rom s.ip &&& 0xf) &&& 0xf) % 256)
          (s.code_rom (s.ip + 1) % 256) s.reg,
        carry := carry, zero := if out = 0 then 1 else 0, hold := out,
        imm := 0, ip := s.ip + 2, clk := (s.clk + 1) % UINT_MOD } := by
  rw [fetch_execute_le s hip, dispatch_ldi _ _ h8 h7 h6 h5 h4]
  obtain ⟨out, carry, h⟩ := op_ldi_eq
    { s with ip := s.ip + 1, clk := (s.clk + 1) % UINT_MOD } (s.code_rom s.ip) hop
  rw [h]
  refine ⟨out, carry, ?_⟩
  have e : (s.ip + 1 + 1) % 256 = s.ip + 2 := by omega
  show Except.ok { s with
        reg := wr_strobe (((s.code_rom s.ip &&& 0xf) &&& 0xf) % 256)
          (s.code_rom (s.ip + 1) % 256) s.reg,
        carry := carry, zero := if out = 0 then 1 else 0, hold := out,
        imm := 0, ip := (s.ip + 1 + 1) % 256, clk := (s.clk + 1) % UINT_MOD } = _
  rw [e]

/-- What `cpu_update_alu` leaves alone. -/
theorem update_alu_frame (c d : cpu) (h : cpu_update_alu c = .ok d) :
    d.clk = c.clk ∧ d.code_rom = c.code_rom ∧ d.w_en = c.w_en ∧ d.hlt = c.hlt ∧
      d.imm = c.imm ∧ d.ip = c.ip ∧ d.reg = c.reg := by
  obtain ⟨_, _, _, rfl⟩ := update_alu_ok c d h
  exact ⟨rfl, rfl, rfl, rfl, rfl, rfl, rfl⟩

/-- What `cpu_wr_enable` leaves alone. -/
theorem wr_enable_frame (c d : cpu) (regs : Nat) (h : cpu_wr_enable c regs = .ok d) :
    d.clk = c.clk ∧ d.code_rom = c.code_rom ∧ d.w_en = c.w_en ∧ d.hlt = c.hlt ∧
      d.imm = c.imm ∧ d.ip = c.ip ∧ ∀ i, 4 ≤ i → d.reg i = c.reg i := by
  obtain ⟨inv, _, h2⟩ := wr_enable_ok c d regs h
  obtain ⟨e1, e2, e3, e4, e5, e6, e7⟩ :=
    update_alu_frame { c with reg := wr_strobe regs inv c.reg } d h2
  refine ⟨e1, e2, e3, e4, e5, e6, fun i hi => ?_⟩
  rw [e7]
  show wr_strobe regs inv c.reg i = c.reg i
  have hn : ¬ i < NUM_REGS := Nat.not_lt.2 hi
  rw [wr_strobe_apply, if_neg (fun hc => hn hc.1)]

/-- What `cpu_op_alu` leaves alone. -/
theorem op_alu_frame (c d : cpu) (op : Nat) (h : cpu_op_alu c op = .ok d) :
    d.clk = c.clk ∧ d.code_rom = c.code_rom ∧ d.w_en = c.w_en ∧ d.hlt = c.hlt ∧
      d.imm = c.imm ∧ d.ip = c.ip ∧ ∀ i, 4 ≤ i → d.reg i = c.reg i := by
  unfold cpu_op_alu at h
  simp only at h
  split at h
  · cases h
  · next c2 h2 =>
    split at h
    · cases h
    · next c3 h3 =>
      obtain ⟨_, rfl⟩ := op_select_ok _ _ _ h2
      obtain ⟨a1, a2, a3, a4, a5, a6, a7⟩ := update_alu_frame _ _ h3
      obtain ⟨b1, b2, b3, b4, b5, b6, b7⟩ := wr_enable_frame _ _ _ h
      refine ⟨b1.trans a1, b2.trans a2, b3.trans a3, b4.trans a4, b5.trans a5, b6.trans a6,
        fun i hi => ?_⟩
      rw [b7 i hi]
      show c3.reg i = c.reg i
      rw [a7]

/-- What `cpu_op_ldi` leaves alone; it ends with `imm` cleared. -/
theorem op_ldi_frame (c d : cpu) (op : Nat) (h : cpu_op_ldi c op = .ok d) :
    d.clk = c.clk ∧ d.code_rom = c.code_rom ∧ d.w_en = c.w_en ∧ d.hlt = c.hlt ∧
      d.imm = 0 ∧ ∀ i, 4 ≤ i → d.reg i = c.reg i := by
  unfold cpu_op_ldi at h
  split at h
  · cases h
  · next c1 h1 =>
    cases h
    obtain ⟨b1, b2, b3, b4, -, -, b7⟩ := wr_enable_frame { c with imm := 1 } c1 _ h1
    exact ⟨b1, b2, b3, b4, rfl, b7⟩

/-- What `cpu_op_condbranch` leaves alone: everything but the instruction pointer. -/
theorem condbranch_frame (c : cpu) (op : Nat) :
    ∃ a, cpu_op_condbranch c op = { c with ip := a } := by
  unfold cpu_op_condbranch
  simp only
  split_ifs
  all_goals exact ⟨_, rfl⟩

/-- What the dispatch leaves alone, whichever path it takes. -/
theorem dispatch_frame (c d : cpu) (w : Nat) (h : cpu_dispatch c w = .ok d) :
    d.clk = c.clk ∧ d.code_rom = c.code_rom ∧ d.w_en = c.w_en ∧ (c.hlt = 1 → d.hlt = 1) ∧
      (c.imm = 0 → d.imm = 0) ∧ ∀ i, 4 ≤ i → d.reg i = c.reg i := by
  cases h8 : w.testBit 8
  swap
  · rw [dispatch_condbranch c w h8] at h
    obtain ⟨a, ha⟩ := condbranch_frame c (w &&& 0xff)
    rw [ha] at h
    cases h
    exact ⟨rfl, rfl, rfl, id, id, fun _ _ => rfl⟩
  cases h7 : w.testBit 7
  swap
  · rw [dispatch_alu c w h8 h7] at h
    obtain ⟨b1, b2, b3, b4, b5, -, b7⟩ := op_alu_frame _ _ _ h
    exact ⟨b1, b2, b3, fun e => b4.trans e, fun e => b5.trans e, b7⟩
  cases h6 : w.testBit 6
  swap
  · rw [dispatch_branch c w h8 h7 h6] at h
    cases h
    exact ⟨rfl, rfl, rfl, id, id, fun _ _ => rfl⟩
  cases h5 : w.testBit 5
  swap
  · rw [dispatch_reserved c w h8 h7 h6 h5] at h
    cases h
    exact ⟨rfl, rfl, rfl, fun _ => rfl, id, fun _ _ => rfl⟩
  cases h4 : w.testBit 4
  swap
  · rw [dispatch_ldi c w h8 h7 h6 h5 h4] at h
    obtain ⟨b1, b2, b3, b4, b5, b7⟩ := op_ldi_frame _ _ _ h
    exact ⟨b1, b2, b3, fun e => b4.trans e, fun _ => b5, b7⟩
  rw [dispatch_no_operand c w h8 h7 h6 h5 h4] at h
  split at h <;> cases h
  · exact ⟨rfl, rfl, rfl, id, id, fun _ _ => rfl⟩
  · exact ⟨rfl, rfl, rfl, fun _ => rfl, id, fun _ _ => rfl⟩

/-- What a completed fetch-execute step does to the cycle counter and what it
leaves alone, whichever path it takes. -/
theorem fetch_execute_frame (c d : cpu) (h : cpu_fetch_execute c = .ok d) :
    d.clk = (c.clk + 1) % UINT_MOD ∧ d.code_rom = c.code_rom ∧ d.w_en = c.w_en ∧
      (c.hlt = 1 → d.hlt = 1) ∧ (c.imm = 0 → d.imm = 0) ∧
      ∀ i, 4 ≤ i → d.reg i = c.reg i := by
  have hip := fetch_execute_ok_ip c d h
  rw [fetch_execute_le c hip] at h
  exact dispatch_frame _ _ _ h

/-- The loop leaves at once with a halted state, whatever the fuel. -/
theorem main_loop_halted (fuel : Nat) (c : cpu) (h : c.hlt ≠ 0) :
    main_loop fuel c = .ok (some c) := by
  cases fuel <;> (unfold main_loop; rw [if_pos (show cpu_halted c ≠ 0 from h)])

/-- One turn of the loop on a state that is not halted. -/
theorem main_loop_step (fuel : Nat) (c d : cpu) (h : c.hlt = 0)
    (hs : cpu_fetch_execute c = .ok d) : main_loop (fuel + 1) c = main_loop fuel d := by
  rw [main_loop, if_neg (show ¬ cpu_halted c ≠ 0 from fun hc => hc h), hs]

/-- The loop out of fuel on a state that is not halted. -/
theorem main_loop_zero (c : cpu) (h : c.hlt = 0) : main_loop 0 c = .ok none := by
  rw [main_loop, if_neg (show ¬ cpu_halted c ≠ 0 from fun hc => hc h)]

/-- The clear-carry word: carry is cleared, the pointer and the cycle counter
are bumped, nothing else changes. -/
theorem fetch_clc (s : cpu) (hip : s.ip < 64)
    (h8 : (s.code_rom s.ip).testBit 8 = false) (h7 : (s.code_rom s.ip).testBit 7 = false)
    (h6 : (s.code_rom s.ip).testBit 6 = false) (h5 : (s.code_rom s.ip).testBit 5 = false)
    (h4 : (s.code_rom s.ip).testBit 4 = false) (h1 : s.code_rom s.ip &&& 0x7 = 1) :
    cpu_fetch_execute s =
      .ok { s with carry := 0, ip := s.ip + 1, clk := (s.clk + 1) % UINT_MOD } := by
  rw [fetch_execute_eq s hip, dispatch_no_operand _ _ h8 h7 h6 h5 h4, if_pos h1]
  rfl

/-- The guard of `cpu_fetch_execute` fires above 64 only. -/
theorem fetch_execute_gt (c : cpu) (h : 64 < c.ip) : cpu_fetch_execute c = .error .abort_ip := by
  unfold cpu_fetch_execute
  rw [if_pos (show c.ip > CODE_ROM_SIZE from h)]

/-- Over a ROM whose cell 0 is 0x40, a state at address 0 with cycle count below
the modulus is taken by `n` steps to itself with the cycle count moved on by
`n` modulo 2^32. -/
theorem self_branch_steps (n : Nat) : ∀ c : cpu, c.ip = 0 → c.code_rom 0 = 0x40 →
    c.clk < UINT_MOD → cpu_steps n c = .ok { c with clk := (c.clk + n) % UINT_MOD } := by
  induction n with
  | zero =>
    intro c _ _ hclk
    have e : (c.clk + 0) % UINT_MOD = c.clk := Nat.mod_eq_of_lt hclk
    rw [e]
    rfl
  | succ n ih =>
    intro c hip hrom hclk
    have hstep : cpu_fetch_execute c = .ok { c with clk := (c.clk + 1) % UINT_MOD } := by
      have hb := fetch_branch c (by omega) (by rw [hip, hrom]; decide)
        (by rw [hip, hrom]; decide) (by rw [hip, hrom]; decide)
      rw [hb, hip, hrom]
      rfl
    have hnext := ih { c with clk := (c.clk + 1) % UINT_MOD } hip hrom
      (Nat.mod_lt _ (by decide))
    rw [cpu_steps, hstep]
    dsimp only
    rw [hnext]
    have e : ((c.clk + 1) % UINT_MOD + n) % UINT_MOD = (c.clk + (n + 1)) % UINT_MOD := by
      rw [Nat.add_mod, Nat.mod_mod, ← Nat.add_mod]
      congr 1
      omega
    simp only [e]

/-- Over a ROM whose cell 0 is 0x40, the loop of `main` started at address 0 in
a state that is not halted runs out of any fuel. -/
theorem self_branch_loop (fuel : Nat) : ∀ c : cpu, c.ip = 0 → c.code_rom 0 = 0x40 →
    c.hlt = 0 → c.clk < UINT_MOD → main_loop fuel c = .ok none := by
  induction fuel with
  | zero =>
    intro c _ _ hh _
    exact main_loop_zero c hh
  | succ fuel ih =>
    intro c hip hrom hh hclk
    have h1 := self_branch_steps 1 c hip hrom hclk
    have hstep : cpu_fetch_execute c = .ok { c with clk := (c.clk + 1) % UINT_MOD } := by
      rw [cpu_steps] at h1
      cases hfe : cpu_fetch_execute c with
      | error e => rw [hfe] at h1; cases h1
      | ok c1 =>
        rw [hfe] at h1
        dsimp only at h1
        rw [cpu_steps] at h1
        exact h1
    rw [main_loop_step fuel c _ hh hstep]
    exact ih _ hip hrom hh (Nat.mod_lt _ (by decide))

/-- A mask below 512 sees the low 9 bits of a word only. -/
theorem and_low9 (w m : Nat) (hm : m < 512) : w &&& m = (w % 512) &&& m := by
  apply Nat.eq_of_testBit_eq
  intro i
  rw [Nat.testBit_and, Nat.testBit_and, show (512 : Nat) = 2 ^ 9 from rfl,
    Nat.testBit_mod_two_pow]
  by_cases hi : i < 9
  · simp [hi]
  · have h2 : m < 2 ^ i :=
      Nat.lt_of_lt_of_le hm (by
        rw [show (512 : Nat) = 2 ^ 9 from rfl]
        exact Nat.pow_le_pow_right (by decide) (by omega))
    rw [Nat.testBit_lt_two_pow h2]
    simp

/-- The dispatch looks at the low 9 bits of the fetched word only. -/
theorem dispatch_congr (c : cpu) (w1 w2 : Nat) (h : w1 % 512 = w2 % 512) :
    cpu_dispatch c w1 = cpu_dispatch c w2 := by
  have e (m : Nat) (hm : m < 512) : w1 &&& m = w2 &&& m := by
    rw [and_low9 w1 m hm, and_low9 w2 m hm, h]
  unfold cpu_dispatch
  rw [e (1 <<< 8) (by decide), e (1 <<< 7) (by decide), e (1 <<< 6) (by decide),
    e (1 <<< 5) (by decide), e (1 <<< 4) (by decide), e 0xff (by decide), e 0x7f (by decide),
    e 0x3f (by decide), e 0xf (by decide), e 0x7 (by decide)]

/-- `cpu_update_alu` does not look at the ROM. -/
theorem update_alu_swap (c : cpu) (rom2 : Nat → Nat) :
    cpu_update_alu (set_rom rom2 c) = (cpu_update_alu c).map (set_rom rom2) := by
  unfold cpu_update_alu set_rom
  dsimp only
  cases alu_switch c.alu_op (c.reg (REG_X + c.bank_x)) (c.reg (REG_Y + c.bank_y)) <;> rfl

/-- The value latched by the strobe is the low byte of the cell at the
instruction pointer, or the bus. -/
theorem wr_source_swap (c : cpu) (rom2 : Nat → Nat)
    (h : c.ip < 64 → c.code_rom c.ip % 256 = rom2 c.ip % 256) :
    wr_source (set_rom rom2 c) = wr_source c := by
  unfold wr_source rom_read set_rom
  dsimp only
  by_cases hi : c.imm ≠ 0
  · rw [if_pos hi, if_pos hi]
    by_cases hip : c.ip < CODE_ROM_SIZE
    · rw [if_pos hip]
      exact (h hip).symm
    · rw [if_neg hip]
  · rw [if_neg hi, if_neg hi]

/-- The strobe over two ROMs that agree in the low byte of the cell at the
instruction pointer. -/
theorem wr_enable_swap (c : cpu) (rom2 : Nat → Nat) (regs : Nat)
    (h : c.ip < 64 → c.code_rom c.ip % 256 = rom2 c.ip % 256) :
    cpu_wr_enable (set_rom rom2 c) regs = (cpu_wr_enable c regs).map (set_rom rom2) := by
  unfold cpu_wr_enable
  rw [wr_source_swap c rom2 h]
  exact update_alu_swap { c with reg := wr_strobe regs (wr_source c) c.reg } rom2

/-- The ALU path over two ROMs that agree in the low byte of the cell at the
instruction pointer. -/
theorem op_alu_swap (c : cpu) (rom2 : Nat → Nat) (op : Nat)
    (h : c.ip < 64 → c.code_rom c.ip % 256 = rom2 c.ip % 256) :
    cpu_op_alu (set_rom rom2 c) op = (cpu_op_alu c op).map (set_rom rom2) := by
  by_cases hop : (((op >>> 2) &&& 0x7) % 256) < ALU_MAX
  · obtain ⟨out, carry, hs⟩ := alu_switch_lt (((op >>> 2) &&& 0x7) % 256)
      (c.reg (REG_X + if op &&& (1 <<< 6) ≠ 0 then 1 else 0))
      (c.reg (REG_Y + if op &&& (1 <<< 5) ≠ 0 then 1 else 0)) hop
    rw [op_alu_eq c op out carry hop hs, op_alu_eq (set_rom rom2 c) op out carry hop hs]
    exact wr_enable_swap
      { c with bank_x := if op &&& (1 <<< 6) ≠ 0 then 1 else 0,
               bank_y := if op &&& (1 <<< 5) ≠ 0 then 1 else 0,
               alu_op := ((op >>> 2) &&& 0x7) % 256,
               carry := carry, zero := if out = 0 then 1 else 0, hold := out, bus := out }
      rom2 ((1 <<< (op &&& 0x3)) % 256) h
  · rw [op_alu_abort c op (Nat.le_of_not_lt hop),
      op_alu_abort (set_rom rom2 c) op (Nat.le_of_not_lt hop)]
    rfl

/-- The load immediate over two ROMs that agree in the low byte of the cell at
the instruction pointer. -/
theorem op_ldi_swap (c : cpu) (rom2 : Nat → Nat) (op : Nat)
    (h : c.ip < 64 → c.code_rom c.ip % 256 = rom2 c.ip % 256) :
    cpu_op_ldi (set_rom rom2 c) op = (cpu_op_ldi c op).map (set_rom rom2) := by
  unfold cpu_op_ldi
  have hw : cpu_wr_enable { set_rom rom2 c with imm := 1 } ((op &&& 0xf) % 256) =
      (cpu_wr_enable { c with imm := 1 } ((op &&& 0xf) % 256)).map (set_rom rom2) :=
    wr_enable_swap { c with imm := 1 } rom2 ((op &&& 0xf) % 256) h
  rw [hw]
  cases cpu_wr_enable { c with imm := 1 } ((op &&& 0xf) % 256) <;> rfl

/-- The conditional branch does not look at the ROM. -/
theorem condbranch_swap (c : cpu) (rom2 : Nat → Nat) (op : Nat) :
    cpu_op_condbranch (set_rom rom2 c) op = set_rom rom2 (cpu_op_condbranch c op) := by
  unfold cpu_op_condbranch set_rom
  dsimp only
  split_ifs <;> rfl

/-- The dispatch over two ROMs that agree in the low byte of the cell at the
instruction pointer. -/
theorem dispatch_swap (c : cpu) (rom2 : Nat → Nat) (w : Nat)
    (h : c.ip < 64 → c.code_rom c.ip % 256 = rom2 c.ip % 256) :
    cpu_dispatch (set_rom rom2 c) w = (cpu_dispatch c w).map (set_rom rom2) := by
  cases h8 : w.testBit 8
  swap
  · rw [dispatch_condbranch _ w h8, dispatch_condbranch c w h8, condbranch_swap]
    rfl
  cases h7 : w.testBit 7
  swap
  · rw [dispatch_alu _ w h8 h7, dispatch_alu c w h8 h7]
    exact op_alu_swap c rom2 _ h
  cases h6 : w.testBit 6
  swap
  · rw [dispatch_branch _ w h8 h7 h6, dispatch_branch c w h8 h7 h6]
    rfl
  cases h5 : w.testBit 5
  swap
  · rw [dispatch_reserved _ w h8 h7 h6 h5, dispatch_reserved c w h8 h7 h6 h5]
    rfl
  cases h4 : w.testBit 4
  swap
  · rw [dispatch_ldi _ w h8 h7 h6 h5 h4, dispatch_ldi c w h8 h7 h6 h5 h4]
    exact op_ldi_swap c rom2 _ h
  rw [dispatch_no_operand _ w h8 h7 h6 h5 h4, dispatch_no_operand c w h8 h7 h6 h5 h4]
  split_ifs <;> rfl

/-- One fetch-execute step over two ROMs that agree in the low 9 bits of the
cell at the instruction pointer and in the low byte of the next cell: the
outcomes are the same, but for the ROM the resulting state carries.  The
memory after the array is the same on both sides. -/
theorem fetch_execute_swap (s : cpu) (rom2 : Nat → Nat)
    (hw : s.ip < 64 → s.code_rom s.ip % 512 = rom2 s.ip % 512)
    (hp : s.ip + 1 < 64 → s.code_rom (s.ip + 1) % 256 = rom2 (s.ip + 1) % 256) :
    cpu_fetch_execute (set_rom rom2 s) = (cpu_fetch_execute s).map (set_rom rom2) := by
  by_cases hle : s.ip ≤ 64
  · rw [fetch_execute_le s hle, fetch_execute_le (set_rom rom2 s) hle]
    have hword : (set_rom rom2 s).code_rom (set_rom rom2 s).ip % 512 = s.code_rom s.ip % 512 := by
      show (if s.ip < CODE_ROM_SIZE then rom2 s.ip else s.code_rom s.ip) % 512 = _
      by_cases hlt : s.ip < CODE_ROM_SIZE
      · rw [if_pos hlt]
        exact (hw hlt).symm
      · rw [if_neg hlt]
    rw [dispatch_congr _ _ (s.code_rom s.ip) hword]
    exact dispatch_swap { s with ip := s.ip + 1, clk := (s.clk + 1) % UINT_MOD } rom2 _ hp
  · rw [fetch_execute_gt s (by omega),
      fetch_execute_gt (set_rom rom2 s) (by show 64 < s.ip; omega)]
    rfl

/-- What any number of completed steps leaves alone. -/
theorem steps_frame (n : Nat) : ∀ c d : cpu, cpu_steps n c = .ok d →
    d.code_rom = c.code_rom ∧ d.w_en = c.w_en ∧ (c.imm = 0 → d.imm = 0) ∧
      ∀ i, 4 ≤ i → d.reg i = c.reg i := by
  induction n with
  | zero =>
    intro c d h
    rw [cpu_steps] at h
    cases h
    exact ⟨rfl, rfl, id, fun _ _ => rfl⟩
  | succ n ih =>
    intro c d h
    rw [cpu_steps] at h
    cases hfe : cpu_fetch_execute c with
    | error e => rw [hfe] at h; cases h
    | ok c1 =>
      rw [hfe] at h
      obtain ⟨-, a2, a3, -, a5, a6⟩ := fetch_execute_frame c c1 hfe
      obtain ⟨b2, b3, b5, b6⟩ := ih c1 d h
      exact ⟨b2.trans a2, b3.trans a3, fun e => b5 (a5 e),
        fun i hi => (b6 i hi).trans (a6 i hi)⟩

/-- The strobe of all four registers forgets what they held. -/
theorem wr_strobe_all (v : Nat) (reg1 reg2 : Nat → Nat) (h : ∀ i, 4 ≤ i → reg1 i = reg2 i) :
    wr_strobe 0xff v reg1 = wr_strobe 0xff v reg2 := by
  funext i
  rw [wr_strobe_apply, wr_strobe_apply]
  by_cases hi : i < 4
  · have hb : Nat.testBit 0xff i = true := by interval_cases i <;> decide
    rw [if_pos ⟨hi, hb⟩, if_pos ⟨hi, hb⟩]
  · rw [if_neg (fun hc => hi hc.1), if_neg (fun hc => hi hc.1)]
    exact h i (by omega)

/-- What `cpu_reset` returns depends on the state it is given through `imm`,
`w_en`, the ROM and the register cells past the four registers only. -/
theorem reset_congr (c1 c2 : cpu) (hi : c1.imm = c2.imm) (hw : c1.w_en = c2.w_en)
    (hr : c1.code_rom = c2.code_rom) (hg : ∀ i, 4 ≤ i → c1.reg i = c2.reg i) :
    cpu_reset c1 = cpu_reset c2 := by
  rw [reset_eq c1 _ rfl, reset_eq c2 _ rfl, hi, hw, hr,
    wr_strobe_all _ c1.reg c2.reg hg]

/-- Reset after a run gives the state that reset gave before the run, provided
`imm` is at the end of the run what it was before the first reset. -/
theorem reset_after_run (s0 r s : cpu) (n : Nat) (hr : cpu_reset s0 = .ok r)
    (hs : cpu_steps n r = .ok s) (himm : s.imm = s0.imm) : cpu_reset s = .ok r := by
  obtain ⟨b2, b3, -, b6⟩ := steps_frame n r s hs
  have hr2 := hr
  rw [reset_eq s0 _ rfl] at hr2
  cases hr2
  rw [← hr]
  refine reset_congr s s0 himm b3 b2 (fun i hi => ?_)
  rw [b6 i hi]
  show wr_strobe 0xff _ s0.reg i = s0.reg i
  have hn : ¬ i < NUM_REGS := Nat.not_lt.2 hi
  rw [wr_strobe_apply, if_neg (fun hc => hn hc.1)]

/-- The scenario `ldi r, v ; halt` run from reset, for every state before
reset.  The machine halts at the second fetch with register `r` holding `v`.
The other three registers hold what the reset strobe latched: 0 when `imm`
was 0 before reset, the low byte of ROM cell 0 otherwise. -/
theorem ldi_then_halt (s0 : cpu) (r v fuel : Nat) (hr : r < 4) (hv : v ≤ 255)
    (h0 : s0.code_rom 0 = (1 <<< 4) ||| (1 <<< r)) (h1 : s0.code_rom 1 = v)
    (h2 : s0.code_rom 2 = 0) :
    ∃ r0 s1 s2, cpu_reset s0 = .ok r0 ∧ cpu_fetch_execute r0 = .ok s1 ∧ s1.hlt = 0 ∧
      cpu_fetch_execute s1 = .ok s2 ∧ main_loop (fuel + 2) r0 = .ok (some s2) ∧
      s2.hlt = 1 ∧ s2.clk = 2 ∧ s2.imm = 0 ∧ s2.code_rom = s0.code_rom ∧ s2.reg r = v ∧
      ∀ i, i < 4 → i ≠ r →
        s2.reg i = if s0.imm ≠ 0 then ((1 <<< 4) ||| (1 <<< r)) % 256 else 0 := by
  obtain ⟨r0, hr0, e1, e2, e3, e4, e5, -⟩ := reset_fields s0
  have hreg : r0.reg = wr_strobe 0xff (if s0.imm ≠ 0 then s0.code_rom 0 % 256 else 0) s0.reg := by
    have h := hr0
    rw [reset_eq s0 _ rfl] at h
    cases h
    rfl
  have hw : r0.code_rom r0.ip = (1 <<< 4) ||| (1 <<< r) := by rw [e3, e4, h0]
  have hbits : ((1 <<< 4) ||| (1 <<< r)).testBit 8 = false ∧
      ((1 <<< 4) ||| (1 <<< r)).testBit 7 = false ∧
      ((1 <<< 4) ||| (1 <<< r)).testBit 6 = false ∧
      ((1 <<< 4) ||| (1 <<< r)).testBit 5 = false ∧
      ((1 <<< 4) ||| (1 <<< r)).testBit 4 = true ∧
      ((((1 <<< 4) ||| (1 <<< r)) &&& 0xf) &&& 0xf) % 256 = 1 <<< r := by
    interval_cases r <;> decide
  obtain ⟨b8, b7, b6, b5, b4, bm⟩ := hbits
  obtain ⟨out, carry, hs1⟩ := fetch_ldi r0 (by rw [e5]; decide) (by rw [e3]; decide)
    (by rw [hw]; exact b8) (by rw [hw]; exact b7) (by rw [hw]; exact b6)
    (by rw [hw]; exact b5) (by rw [hw]; exact b4)
  have h1r : r0.code_rom (0 + 1) = v := by rw [e4, h1]
  rw [hw, bm, e3, h1r, Nat.mod_eq_of_lt (show v < 256 by omega)] at hs1
  have hs2 := fetch_halt
    { r0 with reg := wr_strobe (1 <<< r) v r0.reg, carry := carry,
              zero := if out = 0 then 1 else 0, hold := out, imm := 0, ip := 0 + 2,
              clk := (r0.clk + 1) % UINT_MOD }
    (show 0 + 2 < 64 by decide)
    (by show (r0.code_rom (0 + 2)).testBit 8 = false; rw [e4, h2]; decide)
    (by show (r0.code_rom (0 + 2)).testBit 7 = false; rw [e4, h2]; decide)
    (by show (r0.code_rom (0 + 2)).testBit 6 = false; rw [e4, h2]; decide)
    (Or.inr ⟨by show (r0.code_rom (0 + 2)).testBit 5 = false; rw [e4, h2]; decide,
      by show (r0.code_rom (0 + 2)).testBit 4 = false; rw [e4, h2]; decide,
      by show r0.code_rom (0 + 2) &&& 0x7 ≠ 1; rw [e4, h2]; decide⟩)
  refine ⟨r0, _, _, hr0, hs1, e1, hs2, ?_, rfl, ?_, rfl, e4, ?_, ?_⟩
  · rw [main_loop_step (fuel + 1) r0 _ e1 hs1, main_loop_step fuel _ _ (by exact e1) hs2]
    exact main_loop_halted fuel _ Nat.one_ne_zero
  · show ((r0.clk + 1) % UINT_MOD + 1) % UINT_MOD = 2
    rw [e2]
    rfl
  · show wr_strobe (1 <<< r) v r0.reg r = v
    rw [wr_strobe_apply, Nat.one_shiftLeft, Nat.testBit_two_pow_self]
    simp [hr]
  · intro i hi hne
    show wr_strobe (1 <<< r) v r0.reg i = _
    rw [wr_strobe_apply, Nat.one_shiftLeft, Nat.testBit_two_pow_of_ne (Ne.symm hne), hreg,
      wr_strobe_apply, h0]
    have hb : Nat.testBit 0xff i = true := by interval_cases i <;> decide
    simp [hi, hb, Nat.one_shiftLeft]

theorem memset_code_rom_length : memset_code_rom.length = 128 := by
  unfold memset_code_rom
  rw [List.length_replicate]
  rfl

/-- The byte at offset `j` of the array after the load: the byte of the input
there when the input reaches that far and the offset is inside the array, 0
otherwise. -/
theorem fread_bytes_getD (input : List Nat) (j : Nat) :
    (fread_bytes memset_code_rom input).getD j 0 = if j < 128 then input.getD j 0 else 0 := by
  unfold fread_bytes
  rw [memset_code_rom_length]
  simp only [List.getD_eq_getElem?_getD, List.getElem?_append, List.length_take,
    List.getElem?_take, List.getElem?_drop, memset_code_rom, List.getElem?_replicate]
  by_cases hj : j < 128
  · by_cases hl : j < input.length
    · simp [hj, hl]
    · have : input[j]? = none := List.getElem?_eq_none (by omega)
      simp only [hj, hl, this, if_true]
      split_ifs <;> simp_all
  · simp [hj]
    split_ifs <;> simp

/-- The cells after the load: cell `i` of the 64 is made of the input bytes at
offsets `2 i` and `2 i + 1`, a byte the input does not reach counting as 0. -/
theorem open_code_rom_cell (big_endian : Bool) (c : cpu) (input : List Nat) (i : Nat)
    (hi : i < 64) :
    (open_code_rom big_endian c input).code_rom i =
      cell_of_bytes big_endian (input.getD (2 * i) 0) (input.getD (2 * i + 1) 0) := by
  show (if i < CODE_ROM_SIZE then rom_cells big_endian (fread_bytes memset_code_rom input) i
    else c.code_rom i) = _
  rw [if_pos (show i < CODE_ROM_SIZE from hi)]
  show cell_of_bytes big_endian ((fread_bytes memset_code_rom input).getD (2 * i) 0)
    ((fread_bytes memset_code_rom input).getD (2 * i + 1) 0) = _
  rw [fread_bytes_getD, fread_bytes_getD, if_pos (by omega), if_pos (by omega)]

/-- The load looks at the first 128 bytes of the input only. -/
theorem open_code_rom_take (big_endian : Bool) (c : cpu) (input : List Nat) :
    open_code_rom big_endian c input = open_code_rom big_endian c (input.take 128) := by
  have hb : fread_bytes memset_code_rom (input.take 128) = fread_bytes memset_code_rom input := by
    unfold fread_bytes
    rw [memset_code_rom_length, List.take_take, Nat.min_self]
  unfold open_code_rom
  rw [hb]

/-- `emit_insn` with room left in the ROM. -/
theorem Asm.emit_insn_ok (rom : Asm.code_rom) (insn : Nat) (hroom : rom.addr < 64)
    (hw : insn < 65536) :
    Asm.emit_insn rom insn =
      some { code := Function.update rom.code rom.addr insn, addr := rom.addr + 1 } := by
  unfold Asm.emit_insn
  rw [if_neg (show ¬ rom.addr ≥ CODE_ROM_SIZE from Nat.not_le.2 hroom),
    Nat.mod_eq_of_lt hw, Nat.mod_eq_of_lt (show rom.addr + 1 < 256 by omega)]

/-- The three operand parsers of `alu_op` on the register names of the table. -/
theorem Asm.operand_names (x y d : Nat) (hx : x < 2) (hy : y < 2) (hd : d < 4) :
    Asm.xreg_from_name (Asm.reg_names.getD x []) = some x ∧
      Asm.yreg_from_name (Asm.reg_names.getD (2 + y) []) = some y ∧
      Asm.reg_from_name (Asm.reg_names.getD d []) = some d := by
  interval_cases x <;> interval_cases y <;> interval_cases d <;> decide

/-- The fields of the word `alu_op` emits, as the decoder of the emulator reads
them. -/
theorem Asm.alu_word_fields (x y d : Nat) (hx : x < 2) (hy : y < 2) (hd : d < 4) :
    ((1 <<< 7) ||| (x <<< 6) ||| (y <<< 5) ||| d) < 65536 ∧
      ((1 <<< 7) ||| (x <<< 6) ||| (y <<< 5) ||| d).testBit 8 = false ∧
      ((1 <<< 7) ||| (x <<< 6) ||| (y <<< 5) ||| d).testBit 7 = true ∧
      x = (((1 <<< 7) ||| (x <<< 6) ||| (y <<< 5) ||| d) >>> 6) &&& 1 ∧
      y = (((1 <<< 7) ||| (x <<< 6) ||| (y <<< 5) ||| d) >>> 5) &&& 1 ∧
      0 = (((1 <<< 7) ||| (x <<< 6) ||| (y <<< 5) ||| d) >>> 2) &&& 0x7 ∧
      d = ((1 <<< 7) ||| (x <<< 6) ||| (y <<< 5) ||| d) &&& 0x3 := by
  interval_cases x <;> interval_cases y <;> interval_cases d <;> decide

/-- The encoder `alu_op` on well-formed operands, with room left in the ROM. -/
theorem Asm.alu_op_eq (rom : Asm.code_rom) (op x y d : Nat) (hx : x < 2) (hy : y < 2)
    (hd : d < 4) (hroom : rom.addr < 64) :
    Asm.alu_op rom op
        [Asm.reg_names.getD x [], Asm.reg_names.getD (2 + y) [], Asm.reg_names.getD d []] =
      some { code := Function.update rom.code rom.addr
                       ((1 <<< 7) ||| (x <<< 6) ||| (y <<< 5) ||| d),
             addr := rom.addr + 1 } := by
  obtain ⟨h1, h2, h3⟩ := Asm.operand_names x y d hx hy hd
  unfold Asm.alu_op
  rw [if_neg (fun h => h rfl)]
  simp only [List.getD_cons_zero, List.getD_cons_succ, h1, h2, h3]
  exact Asm.emit_insn_ok rom _ hroom (Asm.alu_word_fields x y d hx hy hd).1

/-- Run, reset, run when `imm` was 0 before the first reset: reset of the state
the run ends in gives back the state the first reset gave, so the second run
repeats the first step for step. -/
theorem run_reset_run_imm_clear (s0 r s : cpu) (n : Nat) (himm : s0.imm = 0)
    (hr : cpu_reset s0 = .ok r) (hs : cpu_steps n r = .ok s) :
    cpu_reset s = .ok r ∧ cpu_steps n r = .ok s := by
  obtain ⟨r1, hr1, -, -, -, -, -, -, -, -, e⟩ := reset_fields s0
  have hrr : r1 = r := by
    rw [hr1] at hr
    cases hr
    rfl
  subst hrr
  have h0 : s.imm = 0 := (steps_frame n r1 s hs).2.2.1 (e.trans himm)
  exact ⟨reset_after_run s0 r1 s n hr hs (h0.trans himm.symm), hs⟩

/-! ## The range of `alu_op` and the faults of a step -/

theorem update_alu_alu_op (c d : cpu) (h : cpu_update_alu c = .ok d) : d.alu_op = c.alu_op := by
  obtain ⟨_, _, _, rfl⟩ := update_alu_ok c d h
  rfl

theorem wr_enable_alu_op (c d : cpu) (regs : Nat) (h : cpu_wr_enable c regs = .ok d) :
    d.alu_op = c.alu_op :=
  update_alu_alu_op { c with reg := wr_strobe regs (wr_source c) c.reg } d h

theorem op_alu_alu_op (c d : cpu) (op : Nat) (h : cpu_op_alu c op = .ok d) :
    d.alu_op < ALU_MAX := by
  unfold cpu_op_alu at h
  simp only at h
  split at h
  · cases h
  · next c2 h2 =>
    split at h
    · cases h
    · next c3 h3 =>
      obtain ⟨hlt, rfl⟩ := op_select_ok _ _ _ h2
      rw [wr_enable_alu_op _ _ _ h]
      show c3.alu_op < ALU_MAX
      rw [update_alu_alu_op _ _ h3]
      exact hlt

theorem op_ldi_alu_op (c d : cpu) (op : Nat) (h : cpu_op_ldi c op = .ok d) :
    d.alu_op = c.alu_op := by
  unfold cpu_op_ldi at h
  split at h
  · cases h
  · next c1 h1 =>
    cases h
    exact wr_enable_alu_op { c with imm := 1 } c1 _ h1

theorem condbranch_alu_op (c : cpu) (op : Nat) : (cpu_op_condbranch c op).alu_op = c.alu_op := by
  unfold cpu_op_condbranch
  simp only
  split_ifs <;> rfl

/-- The dispatch keeps `alu_op` in the range [0, 6): the ALU path is the one
that writes it, through the guard of `cpu_op_select`. -/
theorem dispatch_alu_op_lt (c d : cpu) (w : Nat) (hc : c.alu_op < ALU_MAX)
    (h : cpu_dispatch c w = .ok d) : d.alu_op < ALU_MAX := by
  cases h8 : w.testBit 8
  swap
  · rw [dispatch_condbranch c w h8] at h
    cases h
    rw [condbranch_alu_op]
    exact hc
  cases h7 : w.testBit 7
  swap
  · rw [dispatch_alu c w h8 h7] at h
    exact op_alu_alu_op _ _ _ h
  cases h6 : w.testBit 6
  swap
  · rw [dispatch_branch c w h8 h7 h6] at h
    cases h
    exact hc
  cases h5 : w.testBit 5
  swap
  · rw [dispatch_reserved c w h8 h7 h6 h5] at h
    cases h
    exact hc
  cases h4 : w.testBit 4
  swap
  · rw [dispatch_ldi c w h8 h7 h6 h5 h4] at h
    rw [op_ldi_alu_op _ _ _ h]
    exact hc
  rw [dispatch_no_operand c w h8 h7 h6 h5 h4] at h
  split at h <;> cases h <;> exact hc

theorem fetch_execute_alu_op_lt (c d : cpu) (hc : c.alu_op < ALU_MAX)
    (h : cpu_fetch_execute c = .ok d) : d.alu_op < ALU_MAX := by
  have hle := fetch_execute_ok_ip c d h
  rw [fetch_execute_le c hle] at h
  exact dispatch_alu_op_lt { c with ip := c.ip + 1, clk := (c.clk + 1) % UINT_MOD } d _ hc h

theorem steps_alu_op_lt (n : Nat) : ∀ c d : cpu, c.alu_op < ALU_MAX → cpu_steps n c = .ok d →
    d.alu_op < ALU_MAX := by
  induction n with
  | zero =>
    intro c d hc h
    unfold cpu_steps at h
    cases h
    exact hc
  | succ n ih =>
    intro c d hc h
    unfold cpu_steps at h
    split at h
    · cases h
    · next c1 h1 => exact ih c1 d (fetch_execute_alu_op_lt c c1 hc h1) h

/-- The range [0, 6) of `alu_op` is an invariant of every run: reset selects
add, and every state reached from reset by fetch-execute steps that return has
`alu_op` below 6, whatever the state before reset and the ROM. -/
theorem alu_op_lt_of_reset (s0 r s : cpu) (n : Nat) (hr : cpu_reset s0 = .ok r)
    (hs : cpu_steps n r = .ok s) : s.alu_op < ALU_MAX := by
  have h0 : r.alu_op = 0 := by
    rw [reset_eq s0 _ rfl] at hr
    cases hr
    rfl
  exact steps_alu_op_lt n r s (by rw [h0]; decide) hs

theorem alu_switch_error (op x y : Nat) (e : Fault) (h : alu_switch op x y = .error e) :
    e = .abort_alu_op := by
  unfold alu_switch at h
  split at h <;> cases h
  rfl

theorem update_alu_error (c : cpu) (e : Fault) (h : cpu_update_alu c = .error e) :
    e = .abort_alu_op := by
  unfold cpu_update_alu at h
  simp only at h
  split at h
  · next e1 heq =>
    cases h
    exact alu_switch_error _ _ _ _ heq
  · cases h

theorem op_alu_error (c : cpu) (op : Nat) (e : Fault) (h : cpu_op_alu c op = .error e) :
    e = .abort_alu_op := by
  unfold cpu_op_alu at h
  simp only at h
  split at h
  · next e1 h1 =>
    cases h
    unfold cpu_op_select at h1
    split at h1 <;> cases h1
    rfl
  · next c2 h2 =>
    split at h
    · next e3 h3 =>
      cases h
      exact update_alu_error _ _ h3
    · exact update_alu_error _ _ h

theorem op_ldi_error (c : cpu) (op : Nat) (e : Fault) (h : cpu_op_ldi c op = .error e) :
    e = .abort_alu_op := by
  unfold cpu_op_ldi at h
  split at h
  · next e1 h1 =>
    cases h
    exact update_alu_error
      { c with imm := 1,
               reg := wr_strobe ((op &&& 0xf) % 256) (wr_source { c with imm := 1 }) c.reg } _ h1
  · cases h

/-- The only fault of the dispatch is the ALU op range abort. -/
theorem dispatch_error (c : cpu) (w : Nat) (e : Fault) (h : cpu_dispatch c w = .error e) :
    e = .abort_alu_op := by
  cases h8 : w.testBit 8
  swap
  · rw [dispatch_condbranch c w h8] at h
    cases h
  cases h7 : w.testBit 7
  swap
  · rw [dispatch_alu c w h8 h7] at h
    exact op_alu_error _ _ _ h
  cases h6 : w.testBit 6
  swap
  · rw [dispatch_branch c w h8 h7 h6] at h
    cases h
  cases h5 : w.testBit 5
  swap
  · rw [dispatch_reserved c w h8 h7 h6 h5] at h
    cases h
  cases h4 : w.testBit 4
  swap
  · rw [dispatch_ldi c w h8 h7 h6 h5 h4] at h
    exact op_ldi_error _ _ _ h
  rw [dispatch_no_operand c w h8 h7 h6 h5 h4] at h
  split at h <;> cases h

/-- The instruction pointer abort of `cpu_fetch_execute` is taken above 64 and
nowhere else: at 64 the call fetches. -/
theorem fetch_execute_abort_ip_iff (c : cpu) :
    cpu_fetch_execute c = .error .abort_ip ↔ 64 < c.ip := by
  refine ⟨fun h => ?_, fetch_execute_gt c⟩
  by_contra hgt
  rw [fetch_execute_le c (Nat.le_of_not_lt hgt)] at h
  have := dispatch_error _ _ _ h
  cases this

/-- The bound 66 on the instruction pointer is reached.  Over the ROM that
branches to cell 63, which holds a clear-carry, the third fetch is at 64; when
the memory after the array reads as a load-immediate there, the pointer is 66
three steps after reset. -/
theorem ip_reaches_66 :
    ∃ r s, cpu_reset (blank ldi_past_end_rom) = .ok r ∧ cpu_steps 3 r = .ok s ∧
      s.hlt = 0 ∧ s.ip = 66 :=
  ⟨_, _, rfl, rfl, rfl, rfl⟩
/-! ## The claims -/

/-- Claim C1 (code defect).  `cpu_op_condbranch` keeps the invert bit as the
value 0x80 and tests `val ^ invert`, which is nonzero whenever the invert bit
is set.  Run from reset, the program `ldi x0|y0, 0x80 ; jnc 5` fetches the
branch word at address 2 with carry = 1, so flag XOR invert is 0; the branch
is taken to address 5 all the same, where the truth table says the pointer
goes on to 3.  Likewise for `jnz 5` fetched with zero = 1. -/
theorem condbranch_inverted_taken_with_flag_set :
    ((blank jnc_rom).wf ∧
      cpu_reset (blank jnc_rom) = .ok (reset_of_blank jnc_rom) ∧
      cpu_fetch_execute (reset_of_blank jnc_rom) = .ok (loaded_0x80 jnc_rom) ∧
      (loaded_0x80 jnc_rom).ip = 2 ∧ (loaded_0x80 jnc_rom).carry = 1 ∧
      (jnc_rom 2).testBit 8 = true ∧ (jnc_rom 2).testBit 7 = true ∧
      (jnc_rom 2).testBit 6 = false ∧
      ∃ t, cpu_fetch_execute (loaded_0x80 jnc_rom) = .ok t ∧
        t.ip = jnc_rom 2 &&& 0x3f ∧ t.ip = 5 ∧ t.ip ≠ 2 + 1) ∧
    ((blank jnz_rom).wf ∧
      cpu_reset (blank jnz_rom) = .ok (reset_of_blank jnz_rom) ∧
      cpu_fetch_execute (reset_of_blank jnz_rom) = .ok (loaded_0x80 jnz_rom) ∧
      (loaded_0x80 jnz_rom).ip = 2 ∧ (loaded_0x80 jnz_rom).zero = 1 ∧
      (jnz_rom 2).testBit 8 = true ∧ (jnz_rom 2).testBit 7 = true ∧
      (jnz_rom 2).testBit 6 = true ∧
      ∃ t, cpu_fetch_execute (loaded_0x80 jnz_rom) = .ok t ∧
        t.ip = jnz_rom 2 &&& 0x3f ∧ t.ip = 5 ∧ t.ip ≠ 2 + 1) :=
  ⟨⟨wf_intro _ (by decide) (by decide) (by decide),
      rfl, rfl, rfl, rfl, by decide, by decide, by decide, _, rfl, rfl, rfl, by decide⟩,
    ⟨wf_intro _ (by decide) (by decide) (by decide),
      rfl, rfl, rfl, rfl, by decide, by decide, by decide, _, rfl, rfl, rfl, by decide⟩⟩

/-- Claim C2, refuted as stated.  Over the ROM that branches to cell 63, which
holds a clear-carry, reset and two fetch-execute steps end with the
instruction pointer at 64.  Over the ROM that branches to cell 63, which
holds a load-immediate, they end with the instruction pointer at 65. -/
theorem ip_reaches_64_and_65 :
    ((blank run_off_end_rom).wf ∧
      ∃ r s, cpu_reset (blank run_off_end_rom) = .ok r ∧ cpu_steps 2 r = .ok s ∧
        s.hlt = 0 ∧ s.ip = 64 ∧ ¬ s.ip < 64) ∧
    ((blank ldi_off_end_rom).wf ∧
      ∃ r s, cpu_reset (blank ldi_off_end_rom) = .ok r ∧ cpu_steps 2 r = .ok s ∧
        s.hlt = 0 ∧ s.ip = 65 ∧ ¬ s.ip < 64) :=
  ⟨⟨wf_intro _ (by decide) (by decide) (by decide),
      _, _, rfl, rfl, rfl, rfl, by decide⟩,
    ⟨wf_intro _ (by decide) (by decide) (by decide),
      _, _, rfl, rfl, rfl, rfl, by decide⟩⟩

/-- Claim C2, amended.  For every ROM content and every state before reset,
every state reached from reset by any number of fetch-execute steps that
return has its instruction pointer in [0, 66].  Branch targets are masked to
6 bits; the increment after the fetch and the one after a load immediate are
not, and the guard of the fetch lets the pointer 64 through. -/
theorem ip_le_66_of_reset (s0 r s : cpu) (n : Nat) (hr : cpu_reset s0 = .ok r)
    (hs : cpu_steps n r = .ok s) : s.ip ≤ 66 := by
  have h0 : r.ip = 0 := by
    rw [reset_eq s0 _ rfl] at hr
    cases hr
    rfl
  exact steps_ip_le n r s (by omega) hs

/-- Claim C2, amended: the theorem at the ROM that branches to a load-immediate
in cell 63, two steps after reset. -/
theorem ip_le_66_of_reset_witness :
    ∃ r s, cpu_reset (blank ldi_off_end_rom) = .ok r ∧ cpu_steps 2 r = .ok s ∧ s.ip ≤ 66 :=
  ⟨_, _, rfl, rfl, ip_le_66_of_reset (blank ldi_off_end_rom) _ _ 2 rfl rfl⟩

/-- Claim C3.  For every state of the data model (`alu_op` in [0, 6), the range
every run from reset keeps) with instruction pointer a in [0, 64) whose ROM
cell a is a load-immediate word (bits 8..5 clear, bit 4 set) with mask m =
bits 3..0, one fetch-execute step returns a state with instruction pointer
a + 2 in which every register i of 0..3 whose bit i is set in m holds the low
8 bits of the cell a + 1, not the opcode word, and every other register is
unchanged.  At a = 63 the cell a + 1 is what the memory after the array
holds. -/
theorem ldi_writes_payload (s : cpu) (hop : s.alu_op < ALU_MAX) (hip : s.ip < 64)
    (h8 : (s.code_rom s.ip).testBit 8 = false) (h7 : (s.code_rom s.ip).testBit 7 = false)
    (h6 : (s.code_rom s.ip).testBit 6 = false) (h5 : (s.code_rom s.ip).testBit 5 = false)
    (h4 : (s.code_rom s.ip).testBit 4 = true) :
    ∃ t, cpu_fetch_execute s = .ok t ∧ t.ip = s.ip + 2 ∧
      ∀ i, i < NUM_REGS →
        t.reg i = if (s.code_rom s.ip &&& 0xf).testBit i = true
                  then s.code_rom (s.ip + 1) % 256 else s.reg i := by
  obtain ⟨out, carry, h⟩ := fetch_ldi s hop (Nat.le_of_lt hip) h8 h7 h6 h5 h4
  refine ⟨_, h, rfl, ?_⟩
  intro i hi
  show wr_strobe _ _ s.reg i = _
  rw [wr_strobe_apply, testBit_and_0xf]
  simp only [hi, true_and]

/-- Claim C3: the theorem at a load of 0x80 into x0 and y0 from cell 0, and at a
load of x0 from the last cell, 63. -/
theorem ldi_writes_payload_witness :
    (∃ t, cpu_fetch_execute ldi_ok = .ok t ∧ t.ip = ldi_ok.ip + 2 ∧
      ∀ i, i < NUM_REGS →
        t.reg i = if (ldi_ok.code_rom ldi_ok.ip &&& 0xf).testBit i = true
                  then ldi_ok.code_rom (ldi_ok.ip + 1) % 256 else ldi_ok.reg i) ∧
    (∃ t, cpu_fetch_execute ldi_in_last_cell = .ok t ∧ t.ip = ldi_in_last_cell.ip + 2 ∧
      ∀ i, i < NUM_REGS →
        t.reg i = if (ldi_in_last_cell.code_rom ldi_in_last_cell.ip &&& 0xf).testBit i = true
                  then ldi_in_last_cell.code_rom (ldi_in_last_cell.ip + 1) % 256
                  else ldi_in_last_cell.reg i) :=
  ⟨ldi_writes_payload ldi_ok (by decide) (by decide) (by decide) (by decide) (by decide)
      (by decide) (by decide),
    ldi_writes_payload ldi_in_last_cell (by decide) (by decide) (by decide) (by decide)
      (by decide) (by decide) (by decide)⟩

/-- Claim C4 (code defect).  `cpu_reset` never writes the `imm` bit and `main`
leaves `struct cpu` uninitialised, so a machine can come out of reset in
immediate-source mode.  With the ROM `add x0, y0 -> x0 ; 7` and `imm` left at
1, reset loads 0x80 (the low byte of cell 0) in all registers; the ALU word
then computes 0x80 + 0x80 = 0 with carry and drives 0 on the bus, but the
strobe of `cpu_op_alu` latches ROM cell 1: register x0 ends at 7, not at the
ALU result 0 that is on the bus. -/
theorem alu_writeback_latches_rom_when_imm_set :
    imm_left_set.wf ∧
    cpu_reset imm_left_set = .ok imm_left_set_reset ∧ imm_left_set_reset.imm = 1 ∧
      imm_left_set_reset.ip = 0 ∧ imm_left_set_reset.code_rom 0 = 0x80 ∧
      imm_left_set_reset.reg 0 = 0x80 ∧ imm_left_set_reset.reg 2 = 0x80 ∧
      alu_switch ALU_ADD (imm_left_set_reset.reg 0) (imm_left_set_reset.reg 2) = .ok (0, 1) ∧
      ∃ t, cpu_fetch_execute imm_left_set_reset = .ok t ∧ t.bus = 0 ∧ t.reg 0 = 7 ∧
        t.reg 0 ≠ t.bus :=
  ⟨wf_intro _ (by decide) (by decide) (by decide),
    rfl, rfl, rfl, rfl, rfl, rfl, rfl, _, rfl, rfl, rfl, by decide⟩

/-- Claim C5, refuted as stated.  The ALU word 0x98 has bit 8 clear, bit 7 set
and op field 6: the step aborts in `cpu_op_select`. -/
theorem alu_op_field_6_aborts :
    alu_word_op_6.wf ∧ alu_word_op_6.ip = 0 ∧
      (alu_word_op_6.code_rom 0).testBit 8 = false ∧
      (alu_word_op_6.code_rom 0).testBit 7 = true ∧
      (alu_word_op_6.code_rom 0 >>> 2) &&& 0x7 = 6 ∧
      cpu_fetch_execute alu_word_op_6 = .error .abort_alu_op :=
  ⟨wf_intro _ (by decide) (by decide) (by decide),
    rfl, by decide, by decide, by decide, rfl⟩

/-- Claim C5, amended.  For every state with instruction pointer in [0, 64) and
every fetched word with bit 8 clear and bit 7 set, the fetch-execute step
takes the out-of-range ALU op abort exactly when the op field (bits 4..2) is
6 or 7; when the op field is below 6 the step returns a state. -/
theorem alu_op_abort_iff_field_ge_6 (s : cpu) (hip : s.ip < 64)
    (h8 : (s.code_rom s.ip).testBit 8 = false) (h7 : (s.code_rom s.ip).testBit 7 = true) :
    (cpu_fetch_execute s = .error .abort_alu_op ↔ 6 ≤ (s.code_rom s.ip >>> 2) &&& 0x7) ∧
    ((s.code_rom s.ip >>> 2) &&& 0x7 < 6 → ∃ t, cpu_fetch_execute s = .ok t) := by
  rw [fetch_execute_eq s hip, dispatch_alu _ _ h8 h7]
  by_cases hop : (s.code_rom s.ip >>> 2) &&& 0x7 < 6
  · have hop2 : (((s.code_rom s.ip &&& 0x7f) >>> 2) &&& 0x7) % 256 < ALU_MAX := by
      rw [op_field_eq]; exact hop
    obtain ⟨t, ht⟩ :=
      op_alu_lt { s with ip := s.ip + 1, clk := (s.clk + 1) % UINT_MOD } _ hop2
    rw [ht]
    exact ⟨⟨fun h => (by cases h), fun h => absurd hop (by omega)⟩, fun _ => ⟨t, rfl⟩⟩
  · have hop2 : ALU_MAX ≤ (((s.code_rom s.ip &&& 0x7f) >>> 2) &&& 0x7) % 256 := by
      rw [op_field_eq]; exact Nat.le_of_not_lt hop
    rw [op_alu_abort _ _ hop2]
    exact ⟨⟨fun _ => Nat.le_of_not_lt hop, fun _ => rfl⟩, fun h => absurd h hop⟩

/-- Claim C5, amended: the theorem at the ALU word 0x94, whose op field is 5. -/
theorem alu_op_abort_iff_field_ge_6_witness :
    (cpu_fetch_execute alu_word_op_5 = .error .abort_alu_op ↔
      6 ≤ (alu_word_op_5.code_rom alu_word_op_5.ip >>> 2) &&& 0x7) ∧
    ((alu_word_op_5.code_rom alu_word_op_5.ip >>> 2) &&& 0x7 < 6 →
      ∃ t, cpu_fetch_execute alu_word_op_5 = .ok t) :=
  alu_op_abort_iff_field_ge_6 alu_word_op_5 (by decide) (by decide) (by decide)

/-- Claim C6 (code defect).  `cpu_reset` does not clear the `imm` bit, so its
strobe, meant to clear the registers, latches ROM cell 0 when the bit was 1 before reset.
Over the same ROM `ldi x0, 5 ; halt`, reset from a structure with `imm` = 0
zeroes the four registers, and reset from a structure with `imm` = 1 leaves
17 (the low byte of cell 0) in each, with hold = 34 and zero = 0. -/
theorem reset_latches_rom_cell_when_imm_set :
    imm_clear_before_reset.wf ∧ imm_set_before_reset.wf ∧
    imm_clear_before_reset.code_rom = imm_set_before_reset.code_rom ∧
    ∃ r1 r2, cpu_reset imm_clear_before_reset = .ok r1 ∧
      cpu_reset imm_set_before_reset = .ok r2 ∧
      (r1.reg 0 = 0 ∧ r1.reg 1 = 0 ∧ r1.reg 2 = 0 ∧ r1.reg 3 = 0 ∧ r1.hold = 0 ∧ r1.zero = 1) ∧
      (r2.reg 0 = 17 ∧ r2.reg 1 = 17 ∧ r2.reg 2 = 17 ∧ r2.reg 3 = 17 ∧ r2.hold = 34 ∧
        r2.zero = 0) :=
  ⟨wf_intro _ (by decide) (by decide) (by decide),
    wf_intro _ (by decide) (by decide) (by decide),
    rfl, _, _, rfl, rfl, by decide, by decide⟩

/-- Claim C7.  For all operand values x, y in [0, 255], x the selected X-bank
register and y the selected Y-bank register, `cpu_update_alu` returns with
hold = (x + y) mod 256 and carry = 1 iff x + y >= 256 for add; with hold =
x XOR y, x AND y, x OR y and carry = 0 for xor, and, or; with hold = x and
carry = 0 for pass-x; with hold = y and carry = 0 for pass-y. -/
theorem alu_matches_reference (c : cpu) (x y : Nat)
    (hx : c.reg (REG_X + c.bank_x) = x) (hy : c.reg (REG_Y + c.bank_y) = y)
    (hx8 : x ≤ 255) (hy8 : y ≤ 255) :
    (c.alu_op = ALU_ADD → ∃ d, cpu_update_alu c = .ok d ∧ d.hold = (x + y) % 256 ∧
      (d.carry = 1 ↔ 256 ≤ x + y) ∧ (d.carry = 0 ∨ d.carry = 1)) ∧
    (c.alu_op = ALU_XOR → ∃ d, cpu_update_alu c = .ok d ∧ d.hold = x ^^^ y ∧ d.carry = 0) ∧
    (c.alu_op = ALU_AND → ∃ d, cpu_update_alu c = .ok d ∧ d.hold = x &&& y ∧ d.carry = 0) ∧
    (c.alu_op = ALU_OR → ∃ d, cpu_update_alu c = .ok d ∧ d.hold = x ||| y ∧ d.carry = 0) ∧
    (c.alu_op = ALU_NOPX → ∃ d, cpu_update_alu c = .ok d ∧ d.hold = x ∧ d.carry = 0) ∧
    (c.alu_op = ALU_NOPY → ∃ d, cpu_update_alu c = .ok d ∧ d.hold = y ∧ d.carry = 0) := by
  have hxl : x < 2 ^ 8 := by omega
  have hyl : y < 2 ^ 8 := by omega
  refine ⟨fun h => ?_, fun h => ?_, fun h => ?_, fun h => ?_, fun h => ?_, fun h => ?_⟩
  · refine ⟨_, update_alu_eq c ((x + y) % 65536 % 256)
      (if ((x + y) % 65536) &&& 0x100 ≠ 0 then 1 else 0) (by rw [h, hx, hy]; rfl), ?_, ?_, ?_⟩
    · show (x + y) % 65536 % 256 = (x + y) % 256
      omega
    · show (if ((x + y) % 65536) &&& 0x100 ≠ 0 then 1 else 0) = 1 ↔ _
      rw [add_carry_bit x y hx8 hy8]
      by_cases h256 : 256 ≤ x + y <;> simp [h256]
    · show (if ((x + y) % 65536) &&& 0x100 ≠ 0 then 1 else 0) = 0 ∨
        (if ((x + y) % 65536) &&& 0x100 ≠ 0 then 1 else 0) = 1
      split_ifs <;> simp
  · exact ⟨_, update_alu_eq c ((x ^^^ y) % 256) 0 (by rw [h, hx, hy]; rfl),
      Nat.mod_eq_of_lt (Nat.xor_lt_two_pow hxl hyl), rfl⟩
  · exact ⟨_, update_alu_eq c ((x &&& y) % 256) 0 (by rw [h, hx, hy]; rfl),
      Nat.mod_eq_of_lt (Nat.and_lt_two_pow x hyl), rfl⟩
  · exact ⟨_, update_alu_eq c ((x ||| y) % 256) 0 (by rw [h, hx, hy]; rfl),
      Nat.mod_eq_of_lt (Nat.or_lt_two_pow hxl hyl), rfl⟩
  · exact ⟨_, update_alu_eq c (x % 256) 0 (by rw [h, hx]; rfl), Nat.mod_eq_of_lt hxl, rfl⟩
  · exact ⟨_, update_alu_eq c (y % 256) 0 (by rw [h, hy]; rfl), Nat.mod_eq_of_lt hyl, rfl⟩

/-- Claim C7: the theorem at an add of x1 = 200 and y0 = 100, which carries. -/
theorem alu_matches_reference_witness :
    ∃ d, cpu_update_alu add_200_100 = .ok d ∧ d.hold = (200 + 100) % 256 ∧
      (d.carry = 1 ↔ 256 ≤ 200 + 100) ∧ (d.carry = 0 ∨ d.carry = 1) :=
  (alu_matches_reference add_200_100 200 100 rfl rfl (by decide) (by decide)).1 rfl

/-- Claim C8.  For every state with `alu_op` in [0, 6), whatever the bank
selections and the register values, `cpu_update_alu` returns a state whose
zero flag is 1 if and only if its hold is 0 (and is 0 otherwise). -/
theorem zero_flag_iff_hold_zero (c : cpu) (hop : c.alu_op < ALU_MAX) :
    ∃ d, cpu_update_alu c = .ok d ∧ (d.zero = 1 ↔ d.hold = 0) ∧ (d.zero = 0 ∨ d.zero = 1) := by
  obtain ⟨out, carry, h⟩ := update_alu_lt c hop
  refine ⟨_, h, ?_, ?_⟩
  · show (if out = 0 then 1 else 0) = 1 ↔ out = 0
    by_cases ho : out = 0 <;> simp [ho]
  · show (if out = 0 then 1 else 0) = 0 ∨ (if out = 0 then 1 else 0) = 1
    by_cases ho : out = 0 <;> simp [ho]

/-- Claim C8: the theorem at the add of 0x80 and 0x80, which overflows to 0. -/
theorem zero_flag_iff_hold_zero_witness :
    ∃ d, cpu_update_alu add_overflow_to_zero = .ok d ∧ (d.zero = 1 ↔ d.hold = 0) ∧
      (d.zero = 0 ∨ d.zero = 1) :=
  zero_flag_iff_hold_zero add_overflow_to_zero (by decide)

/-- Claim C9, refuted as stated.  The reserved word 0x20 fetched when the cycle
counter holds 2^32 - 1 halts the machine with cycle count 0: the counter is an
`unsigned int` and wraps, it is not increased by 1. -/
theorem halt_word_wraps_cycle_count :
    reserved_word_last_tick.wf ∧ reserved_word_last_tick.hlt = 0 ∧
      reserved_word_last_tick.ip = 0 ∧ reserved_word_last_tick.clk = 2 ^ 32 - 1 ∧
      (reserved_word_last_tick.code_rom 0).testBit 8 = false ∧
      (reserved_word_last_tick.code_rom 0).testBit 7 = false ∧
      (reserved_word_last_tick.code_rom 0).testBit 6 = false ∧
      (reserved_word_last_tick.code_rom 0).testBit 5 = true ∧
      ∃ t, cpu_fetch_execute reserved_word_last_tick = .ok t ∧ t.hlt = 1 ∧ t.clk = 0 ∧
        t.clk ≠ reserved_word_last_tick.clk + 1 :=
  ⟨wf_intro _ (by decide) (by decide) (by decide),
    rfl, rfl, rfl, by decide, by decide, by decide, by decide, _, rfl, rfl, rfl, by decide⟩

/-- Claim C9, amended.  For every state that is not halted, with instruction
pointer in [0, 64) and fetched word w, the fetch-execute step returns a halted
state if and only if bits 8, 7 and 6 of w are clear and either bit 5 is set,
or bits 5 and 4 are clear and bits 2..0 differ from 1.  On those words the
step returns the state with only `hlt` set, the pointer moved on by one and
the cycle count increased by 1 modulo 2^32: registers, flags, bus and hold are
unchanged.  And for every state `s0` before reset whose ROM cell 0 has bit 5
set and bits 8..6 clear, reset followed by one step halts with cycle count
1. -/
theorem halt_iff_halt_or_fault_word (s s0 : cpu) (hh : s.hlt = 0) (hip : s.ip < 64) :
    ((∃ t, cpu_fetch_execute s = .ok t ∧ t.hlt = 1) ↔
      ((s.code_rom s.ip).testBit 8 = false ∧ (s.code_rom s.ip).testBit 7 = false ∧
        (s.code_rom s.ip).testBit 6 = false ∧
        ((s.code_rom s.ip).testBit 5 = true ∨
          ((s.code_rom s.ip).testBit 5 = false ∧ (s.code_rom s.ip).testBit 4 = false ∧
            s.code_rom s.ip &&& 0x7 ≠ 1)))) ∧
    (((s.code_rom s.ip).testBit 8 = false ∧ (s.code_rom s.ip).testBit 7 = false ∧
        (s.code_rom s.ip).testBit 6 = false ∧
        ((s.code_rom s.ip).testBit 5 = true ∨
          ((s.code_rom s.ip).testBit 5 = false ∧ (s.code_rom s.ip).testBit 4 = false ∧
            s.code_rom s.ip &&& 0x7 ≠ 1))) →
      cpu_fetch_execute s =
        .ok { s with hlt := 1, ip := s.ip + 1, clk := (s.clk + 1) % UINT_MOD }) ∧
    ((s0.code_rom 0).testBit 8 = false → (s0.code_rom 0).testBit 7 = false →
      (s0.code_rom 0).testBit 6 = false → (s0.code_rom 0).testBit 5 = true →
      ∃ r t, cpu_reset s0 = .ok r ∧ cpu_fetch_execute r = .ok t ∧ t.hlt = 1 ∧ t.clk = 1) := by
  refine ⟨⟨?_, fun h => ⟨_, fetch_halt s hip h.1 h.2.1 h.2.2.1 h.2.2.2, rfl⟩⟩,
    fun h => fetch_halt s hip h.1 h.2.1 h.2.2.1 h.2.2.2, ?_⟩
  · rintro ⟨t, ht, hlt⟩
    exact halted_after_step s t hh hip ht hlt
  · intro h8 h7 h6 h5
    obtain ⟨r, hr, -, e2, e3, e4, -⟩ := reset_fields s0
    have hstep : cpu_fetch_execute r =
        .ok { r with hlt := 1, ip := r.ip + 1, clk := (r.clk + 1) % UINT_MOD } := by
      rw [fetch_execute_eq r (by omega), e3, e4, dispatch_reserved _ _ h8 h7 h6 h5]
      rfl
    refine ⟨r, _, hr, hstep, rfl, ?_⟩
    show (r.clk + 1) % UINT_MOD = 1
    rw [e2]
    rfl

/-- Claim C9, amended: the theorem at the reserved word 0x20 in cell 0, stepped
from the blank state and run from reset. -/
theorem halt_iff_halt_or_fault_word_witness :
    (∃ t, cpu_fetch_execute reserved_word = .ok t ∧ t.hlt = 1) ∧
    (∃ r t, cpu_reset reserved_word = .ok r ∧ cpu_fetch_execute r = .ok t ∧ t.hlt = 1 ∧
      t.clk = 1) :=
  ⟨(halt_iff_halt_or_fault_word reserved_word reserved_word rfl (by decide)).1.2
      ⟨by decide, by decide, by decide, Or.inl (by decide)⟩,
    (halt_iff_halt_or_fault_word reserved_word reserved_word rfl (by decide)).2.2
      (by decide) (by decide) (by decide) (by decide)⟩

/-- Claim C10, refuted as stated.  A branch word fetched when the cycle counter
holds 2^32 - 1 leaves the cycle count at 0: the counter is an `unsigned int`
and wraps, it is not incremented by 1.  Over the ROM whose cell 0 is a branch
to 0, that state is the one 2^32 - 1 steps after reset. -/
theorem branch_wraps_cycle_count :
    (branch_last_tick.wf ∧ branch_last_tick.ip = 9 ∧ branch_last_tick.clk = 2 ^ 32 - 1 ∧
      (branch_last_tick.code_rom 9).testBit 8 = false ∧
      (branch_last_tick.code_rom 9).testBit 7 = false ∧
      (branch_last_tick.code_rom 9).testBit 6 = true ∧
      ∃ t, cpu_fetch_execute branch_last_tick = .ok t ∧ t.ip = 5 ∧ t.clk = 0 ∧
        t.clk ≠ branch_last_tick.clk + 1) ∧
    (self_branch.wf ∧
      ∃ r s t, cpu_reset self_branch = .ok r ∧ cpu_steps (2 ^ 32 - 1) r = .ok s ∧
        s.ip = 0 ∧ s.clk = 2 ^ 32 - 1 ∧ cpu_fetch_execute s = .ok t ∧ t.ip = 0 ∧ t.clk = 0 ∧
        t.clk ≠ s.clk + 1) :=
  ⟨⟨wf_intro _ (by decide) (by decide) (by decide),
      rfl, rfl, by decide, by decide, by decide, _, rfl, rfl, rfl, by decide⟩,
    ⟨wf_intro _ (by decide) (by decide) (by decide),
      reset_of_blank (rom_of [0x40]), _, _, rfl,
      self_branch_steps (2 ^ 32 - 1) (reset_of_blank (rom_of [0x40])) rfl rfl (by decide),
      rfl, rfl, rfl, rfl, rfl, by decide⟩⟩

/-- Claim C10, amended.  For every state with instruction pointer in [0, 64) and
every fetched word w with bits 8 and 7 clear and bit 6 set, the fetch-execute
step returns the state in which the instruction pointer is w & 0x3f, whatever
the address the word was fetched from, the cycle count is increased by 1
modulo 2^32, and every other field is unchanged: registers, carry, zero, bus,
hold, bank selectors, `alu_op`, `hlt`, `imm` and the ROM. -/
theorem branch_is_absolute (s : cpu) (w : Nat) (hw : s.code_rom s.ip = w) (hip : s.ip < 64)
    (h8 : w.testBit 8 = false) (h7 : w.testBit 7 = false) (h6 : w.testBit 6 = true) :
    cpu_fetch_execute s = .ok { s with ip := w &&& 0x3f, clk := (s.clk + 1) % UINT_MOD } := by
  subst hw
  exact fetch_branch s hip h8 h7 h6

/-- Claim C10, amended: the theorem at the branch word 0x45 fetched from cell 9. -/
theorem branch_is_absolute_witness :
    cpu_fetch_execute branch_at_9 = .ok { branch_at_9 with ip := 0x45 &&& 0x3f, clk := 42 } :=
  branch_is_absolute branch_at_9 0x45 rfl (by decide) (by decide) (by decide) (by decide)

/-- Claim C11 (code defect).  With the ROM `ldi x0, 5 ; halt` (cells 0x11, 5, 0
and zeroes) and the `imm` bit of the uninitialised `struct cpu` at 1, reset
and the run-until-halted loop halt after 2 fetches with x0 = 5 and cycle
count 2, but the other three registers hold 17, the low byte of ROM cell 0
that the reset strobe latched, not 0. -/
theorem ldi_then_halt_other_registers_not_cleared :
    imm_set_before_reset.wf ∧
    imm_set_before_reset.code_rom 0 = (1 <<< 4) ||| (1 <<< 0) ∧
    imm_set_before_reset.code_rom 1 = 5 ∧
    (∀ i, i < 64 → 2 ≤ i → imm_set_before_reset.code_rom i = 0) ∧
    ∃ r0 s, cpu_reset imm_set_before_reset = .ok r0 ∧ main_loop 2 r0 = .ok (some s) ∧
      s.hlt = 1 ∧ s.clk = 2 ∧ s.reg 0 = 5 ∧ s.reg 1 = 17 ∧ s.reg 2 = 17 ∧ s.reg 3 = 17 := by
  refine ⟨wf_intro _ (by decide) (by decide) (by decide),
    by decide, by decide, by decide, ?_⟩
  obtain ⟨r0, s1, s2, hr0, -, -, -, hl, hh, hc, -, -, hx, ho⟩ :=
    ldi_then_halt imm_set_before_reset 0 5 0 (by decide) (by decide) (by decide) (by decide)
      (by decide)
  exact ⟨r0, s2, hr0, hl, hh, hc, hx,
    (ho 1 (by decide) (by decide)).trans (by decide),
    (ho 2 (by decide) (by decide)).trans (by decide),
    (ho 3 (by decide) (by decide)).trans (by decide)⟩

/-- Claim C12 (code defect).  With the ROM `ldi x0, 5 ; halt` and the `imm` bit
at 1 before the first reset, the first run halts after 2 cycles in a state
with x1 = 17; the load has cleared `imm`, so reset of that state and a second
run over the same ROM halt after 2 cycles with x1 = 0: the two final states
differ. -/
theorem second_run_differs_when_imm_set :
    imm_set_before_reset.wf ∧
    ∃ r1 s r2 t, cpu_reset imm_set_before_reset = .ok r1 ∧ main_loop 2 r1 = .ok (some s) ∧
      s.hlt = 1 ∧ s.clk = 2 ∧ s.code_rom = imm_set_before_reset.code_rom ∧
      cpu_reset s = .ok r2 ∧ main_loop 2 r2 = .ok (some t) ∧ t.hlt = 1 ∧ t.clk = 2 ∧
      s.reg 1 = 17 ∧ t.reg 1 = 0 ∧ s ≠ t := by
  refine ⟨wf_intro _ (by decide) (by decide) (by decide), ?_⟩
  obtain ⟨r1, -, s, hr1, -, -, -, hl1, hh1, hc1, hi1, hrom1, -, ho1⟩ :=
    ldi_then_halt imm_set_before_reset 0 5 0 (by decide) (by decide) (by decide) (by decide)
      (by decide)
  obtain ⟨r2, -, t, hr2, -, -, -, hl2, hh2, hc2, -, -, -, ho2⟩ :=
    ldi_then_halt s 0 5 0 (by decide) (by decide) (by rw [hrom1]; decide)
      (by rw [hrom1]; decide) (by rw [hrom1]; decide)
  have e1 : s.reg 1 = 17 := (ho1 1 (by decide) (by decide)).trans (by decide)
  have e2 : t.reg 1 = 0 := by
    rw [ho2 1 (by decide) (by decide), if_neg (fun hc => hc hi1)]
  refine ⟨r1, s, r2, t, hr1, hl1, hh1, hc1, hrom1, hr2, hl2, hh2, hc2, e1, e2, fun hst => ?_⟩
  rw [hst, e2] at e1
  exact absurd e1 (by decide)

/-- Claim C13.  For every halted state, a fetch-execute step that returns leaves
the state halted, and the run-until-halted loop of `main` takes no step and
returns the state as it is, whatever the fuel; `cpu_reset` is what clears the
flag. -/
theorem halted_stays_halted (c : cpu) (h : c.hlt = 1) :
    (∀ d, cpu_fetch_execute c = .ok d → d.hlt = 1) ∧
    (∀ fuel, main_loop fuel c = .ok (some c)) ∧
    (∃ r, cpu_reset c = .ok r ∧ r.hlt = 0) := by
  refine ⟨fun d hd => (fetch_execute_frame c d hd).2.2.2.1 h,
    fun fuel => main_loop_halted fuel c (by rw [h]; decide), ?_⟩
  obtain ⟨r, hr, h0, -⟩ := reset_fields c
  exact ⟨r, hr, h0⟩

/-- Claim C13: the theorem at a halted state whose next word is a branch. -/
theorem halted_stays_halted_witness :
    (∀ d, cpu_fetch_execute halted_state = .ok d → d.hlt = 1) ∧
    (∀ fuel, main_loop fuel halted_state = .ok (some halted_state)) ∧
    (∃ r, cpu_reset halted_state = .ok r ∧ r.hlt = 0) :=
  halted_stays_halted halted_state rfl

/-- Claim C14.  For every state on which the fetch-execute step returns, the
cycle count after the step is the cycle count before plus 1 as an `unsigned
int`, whichever of the six decode paths is taken. -/
theorem cycle_count_increments (c d : cpu) (h : cpu_fetch_execute c = .ok d) :
    d.clk = (c.clk + 1) % UINT_MOD :=
  (fetch_execute_frame c d h).1

/-- Claim C14: the theorem at a load immediate, which moves the pointer twice. -/
theorem cycle_count_increments_witness :
    cpu_fetch_execute ldi_ok = .ok ldi_ok_after ∧ ldi_ok_after.ip = ldi_ok.ip + 2 ∧
      ldi_ok_after.clk = (ldi_ok.clk + 1) % UINT_MOD :=
  ⟨rfl, rfl, cycle_count_increments ldi_ok ldi_ok_after rfl⟩

/-- Claim C15 (code defect).  The guard of `cpu_fetch_execute` is `ip > 64`, one
off: at instruction pointer 64 it does not abort, and the fetch indexes
`code_rom[64]`, the memory after the array.  That state is reached two steps
after reset over the ROM that branches to cell 63, which holds a clear-carry.
The call dispatches whatever it read there and returns: with 0 after the
array the machine halts with pointer 65, with 0x45 there it branches to 5.
The strobe of a load-immediate fetched from cell 63 indexes `code_rom[64]` as
well, and loads what it finds there. -/
theorem fetch_at_64_reads_past_rom :
    (blank run_off_end_rom).wf ∧
    cpu_reset (blank run_off_end_rom) = .ok (reset_of_blank run_off_end_rom) ∧
    cpu_steps 2 (reset_of_blank run_off_end_rom) = .ok ran_off_end ∧
    ran_off_end.hlt = 0 ∧ ran_off_end.ip = 64 ∧
    cpu_fetch_execute ran_off_end ≠ .error .abort_ip ∧
    cpu_fetch_execute ran_off_end =
      cpu_dispatch { ran_off_end with ip := 65, clk := 3 } (ran_off_end.code_rom 64) ∧
    cpu_fetch_execute ran_off_end = .ok { ran_off_end with hlt := 1, ip := 65, clk := 3 } ∧
    ran_off_end_branch.ip = 64 ∧ ran_off_end_branch.code_rom 64 = 0x45 ∧
    cpu_fetch_execute ran_off_end_branch = .ok { ran_off_end_branch with ip := 5, clk := 3 } ∧
    ldi_in_last_cell.ip = 63 ∧ ldi_in_last_cell.code_rom 64 = 0x2a ∧
    cpu_fetch_execute ldi_in_last_cell = .ok ldi_in_last_cell_after ∧
    ldi_in_last_cell_after.ip = 65 ∧ ldi_in_last_cell_after.reg 0 = 0x2a :=
  ⟨wf_intro _ (by decide) (by decide) (by decide),
    rfl, rfl, rfl, rfl, fun h => (by cases h), rfl, rfl, rfl, rfl, rfl, rfl, rfl, rfl, rfl, rfl⟩

/-- Claim C16.  For every mnemonic code `op`, every X-bank selector x in {0, 1},
Y-bank selector y in {0, 1} and destination d in 0..3, the assembler encoder
`alu_op`, given the names of those registers and room in the ROM, emits the
word (1<<7)|(x<<6)|(y<<5)|d, and so do `op_add`, `op_xor`, `op_and`, `op_or`,
`op_nopx` and `op_nopy` alike.  Bits 4..2 of the word are 0, and every state
of the emulator that fetches it executes an add: `alu_op` = add, bank_x = x,
bank_y = y, the bus carries the sum of the X and Y operands, and register d
is the one written. -/
theorem asm_alu_encoding_drops_op (rom : Asm.code_rom) (op x y d : Nat)
    (hx : x < 2) (hy : y < 2) (hd : d < 4) (hroom : rom.addr < 64) :
    (Asm.alu_op rom op
        [Asm.reg_names.getD x [], Asm.reg_names.getD (2 + y) [], Asm.reg_names.getD d []] =
      some { code := Function.update rom.code rom.addr
                       ((1 <<< 7) ||| (x <<< 6) ||| (y <<< 5) ||| d),
             addr := rom.addr + 1 }) ∧
    (∀ f ∈ [Asm.op_add, Asm.op_xor, Asm.op_and, Asm.op_or, Asm.op_nopx, Asm.op_nopy],
      f rom [Asm.reg_names.getD x [], Asm.reg_names.getD (2 + y) [], Asm.reg_names.getD d []] =
        some { code := Function.update rom.code rom.addr
                         ((1 <<< 7) ||| (x <<< 6) ||| (y <<< 5) ||| d),
               addr := rom.addr + 1 }) ∧
    ((((1 <<< 7) ||| (x <<< 6) ||| (y <<< 5) ||| d) >>> 2) &&& 0x7 = ALU_ADD) ∧
    (∀ s : cpu, s.ip < 64 → s.code_rom s.ip = (1 <<< 7) ||| (x <<< 6) ||| (y <<< 5) ||| d →
      ∃ t out carry v, cpu_fetch_execute s = .ok t ∧
        alu_switch ALU_ADD (s.reg (REG_X + x)) (s.reg (REG_Y + y)) = .ok (out, carry) ∧
        t.alu_op = ALU_ADD ∧ t.bank_x = x ∧ t.bank_y = y ∧ t.bus = out ∧
        t.reg = Function.update s.reg d v ∧ (s.imm = 0 → v = out)) := by
  obtain ⟨-, w8, w7, wx, wy, wc, wd⟩ := Asm.alu_word_fields x y d hx hy hd
  refine ⟨Asm.alu_op_eq rom op x y d hx hy hd hroom, ?_, wc.symm, ?_⟩
  · intro f hf
    simp only [List.mem_cons, List.mem_singleton, List.not_mem_nil, or_false] at hf
    rcases hf with rfl | rfl | rfl | rfl | rfl | rfl
    · exact Asm.alu_op_eq rom ALU_ADD x y d hx hy hd hroom
    · exact Asm.alu_op_eq rom ALU_XOR x y d hx hy hd hroom
    · exact Asm.alu_op_eq rom ALU_AND x y d hx hy hd hroom
    · exact Asm.alu_op_eq rom ALU_OR x y d hx hy hd hroom
    · exact Asm.alu_op_eq rom ALU_NOPX x y d hx hy hd hroom
    · exact Asm.alu_op_eq rom ALU_NOPY x y d hx hy hd hroom
  · intro s hip hw
    obtain ⟨out, carry, out2, carry2, v, h1, hv, -, hstep⟩ :=
      alu_step s _ x y 0 d hw hip w8 w7 wx wy wc wd (by decide)
    refine ⟨_, out, carry, v, hstep, h1, rfl, rfl, rfl, rfl, rfl, fun hi => ?_⟩
    rw [hv, if_neg (fun hc => hc hi)]

/-- Claim C16: the theorem at the operands x1, y0, y1 of an `xor` (x = 1, y = 0,
d = 3), emitted at address 2. -/
theorem asm_alu_encoding_drops_op_witness :
    Asm.alu_op asm_rom ALU_XOR [['x', '1'], ['y', '0'], ['y', '1']] =
      some { code := Function.update asm_rom.code 2 0xc3, addr := 3 } ∧
    (0xc3 >>> 2) &&& 0x7 = ALU_ADD :=
  ⟨(asm_alu_encoding_drops_op asm_rom ALU_XOR 1 0 3 (by decide) (by decide) (by decide)
      (by decide)).1,
    (asm_alu_encoding_drops_op asm_rom ALU_XOR 1 0 3 (by decide) (by decide) (by decide)
      (by decide)).2.2.1⟩

/-- Claim C17.  For every input byte sequence the load returns, with an array of
exactly 128 bytes, that is 64 cells.  Every cell the input covers with both
its bytes holds the value supplied, every cell no input byte reaches is 0, and
the bytes past the first 128 have no effect.  (A cell is its two bytes in the
byte order of the host.) -/
theorem rom_load_permissive (big_endian : Bool) (c : cpu) (input : List Nat) :
    (fread_bytes memset_code_rom input).length = 2 * 64 ∧
    fread_count memset_code_rom input = min 128 input.length ∧
    (∀ i, i < 64 → 2 * i + 1 < input.length →
      (open_code_rom big_endian c input).code_rom i =
        cell_of_bytes big_endian (input.getD (2 * i) 0) (input.getD (2 * i + 1) 0)) ∧
    (∀ i, i < 64 → input.length ≤ 2 * i →
      (open_code_rom big_endian c input).code_rom i = 0) ∧
    (∀ excess : List Nat, 128 ≤ input.length →
      open_code_rom big_endian c (input ++ excess) = open_code_rom big_endian c input) := by
  refine ⟨?_, ?_, fun i hi _ => open_code_rom_cell big_endian c input i hi, fun i hi hl => ?_,
    fun excess hl => ?_⟩
  · unfold fread_bytes
    rw [List.length_append, List.length_drop, List.length_take, memset_code_rom_length]
    omega
  · unfold fread_count
    rw [List.length_take, memset_code_rom_length]
  · rw [open_code_rom_cell big_endian c input i hi]
    have h0 : input.getD (2 * i) 0 = 0 := by
      rw [List.getD_eq_getElem?_getD, List.getElem?_eq_none (by omega)]
      rfl
    have h1 : input.getD (2 * i + 1) 0 = 0 := by
      rw [List.getD_eq_getElem?_getD, List.getElem?_eq_none (by omega)]
      rfl
    rw [h0, h1]
    cases big_endian <;> rfl
  · rw [open_code_rom_take big_endian c (input ++ excess), open_code_rom_take big_endian c input,
      List.take_append_of_le_length hl]

/-- Claim C17: the theorem at an input of one whole cell and a stray byte, on a
little-endian host. -/
theorem rom_load_permissive_witness :
    (open_code_rom false (blank (rom_of [])) short_rom_file).code_rom 0 = 0x0123 ∧
    (open_code_rom false (blank (rom_of [])) short_rom_file).code_rom 2 = 0 :=
  ⟨((rom_load_permissive false (blank (rom_of [])) short_rom_file).2.2.1 0 (by decide)
      (by decide)).trans (by decide),
    (rom_load_permissive false (blank (rom_of [])) short_rom_file).2.2.2.1 2 (by decide)
      (by decide)⟩

/-- Claim C18, refuted as stated.  The clear-carry word 0x09 fetched when the
cycle counter holds 2^32 - 1 leaves the cycle count at 0: the counter is an
`unsigned int` and wraps, it is not the count before plus 1. -/
theorem clc_wraps_cycle_count :
    clc_word_last_tick.wf ∧ clc_word_last_tick.ip = 0 ∧ clc_word_last_tick.clk = 2 ^ 32 - 1 ∧
      (clc_word_last_tick.code_rom 0).testBit 8 = false ∧
      (clc_word_last_tick.code_rom 0).testBit 7 = false ∧
      (clc_word_last_tick.code_rom 0).testBit 6 = false ∧
      (clc_word_last_tick.code_rom 0).testBit 5 = false ∧
      (clc_word_last_tick.code_rom 0).testBit 4 = false ∧
      clc_word_last_tick.code_rom 0 &&& 0x7 = 1 ∧
      ∃ t, cpu_fetch_execute clc_word_last_tick = .ok t ∧ t.carry = 0 ∧ t.ip = 1 ∧ t.clk = 0 ∧
        t.clk ≠ clc_word_last_tick.clk + 1 :=
  ⟨wf_intro _ (by decide) (by decide) (by decide),
    rfl, rfl, by decide, by decide, by decide, by decide, by decide, by decide,
    _, rfl, rfl, rfl, rfl, by decide⟩

/-- Claim C18, amended.  For every state with instruction pointer a in [0, 64)
and every fetched word with bits 8..4 clear and bits 2..0 equal to 1, the
fetch-execute step returns the state with carry = 0, instruction pointer
a + 1 and the cycle count increased by 1 modulo 2^32; the four registers,
zero, hold, bus, the bank selectors, `alu_op`, `hlt`, `imm` and the ROM are
unchanged. -/
theorem clc_clears_only_carry (s : cpu) (w : Nat) (hw : s.code_rom s.ip = w) (hip : s.ip < 64)
    (h8 : w.testBit 8 = false) (h7 : w.testBit 7 = false) (h6 : w.testBit 6 = false)
    (h5 : w.testBit 5 = false) (h4 : w.testBit 4 = false) (h1 : w &&& 0x7 = 1) :
    cpu_fetch_execute s =
      .ok { s with carry := 0, ip := s.ip + 1, clk := (s.clk + 1) % UINT_MOD } := by
  subst hw
  exact fetch_clc s hip h8 h7 h6 h5 h4 h1

/-- Claim C18, amended: the theorem at the word 0x09 fetched with carry and zero
set. -/
theorem clc_clears_only_carry_witness :
    cpu_fetch_execute clc_word = .ok { clc_word with carry := 0, ip := 1, clk := 1 } :=
  clc_clears_only_carry clc_word 0x09 rfl (by decide) (by decide) (by decide) (by decide)
    (by decide) (by decide) (by decide)

/-- Claim C19.  For every state and every second ROM whose 64 cells agree with
the ROM of the state in their low 9 bits, one fetch-execute step has the same
outcome under both ROMs: the same fault, or states with the same registers,
flags, bus, hold, bank selectors, `alu_op`, instruction pointer, cycle count
and `hlt`.  And the cell after the fetched word, the payload of a load
immediate, needs to agree in its low 8 bits only.  (The state under the
second ROM is `set_rom`: its 64 ROM cells are replaced, the memory after the
array is that of the state.) -/
theorem rom_high_bits_ignored (s : cpu) (rom2 : Nat → Nat)
    (h : ∀ i, i < 64 → s.code_rom i % 512 = rom2 i % 512) :
    (cpu_fetch_execute (set_rom rom2 s) = (cpu_fetch_execute s).map (set_rom rom2)) ∧
    (∀ t1, cpu_fetch_execute s = .ok t1 →
      ∃ t2, cpu_fetch_execute (set_rom rom2 s) = .ok t2 ∧
        t2.reg = t1.reg ∧ t2.carry = t1.carry ∧ t2.zero = t1.zero ∧ t2.bus = t1.bus ∧
        t2.hold = t1.hold ∧ t2.bank_x = t1.bank_x ∧ t2.bank_y = t1.bank_y ∧
        t2.alu_op = t1.alu_op ∧ t2.ip = t1.ip ∧ t2.clk = t1.clk ∧ t2.hlt = t1.hlt) ∧
    (∀ rom3 : Nat → Nat, s.code_rom s.ip % 512 = rom3 s.ip % 512 →
      s.code_rom (s.ip + 1) % 256 = rom3 (s.ip + 1) % 256 →
      cpu_fetch_execute (set_rom rom3 s) = (cpu_fetch_execute s).map (set_rom rom3)) := by
  have hmain : cpu_fetch_execute (set_rom rom2 s) = (cpu_fetch_execute s).map (set_rom rom2) :=
    fetch_execute_swap s rom2 (fun hip => h _ hip) (fun hip => by
      have := h _ hip
      omega)
  refine ⟨hmain, fun t1 ht1 => ?_, fun rom3 hw hp => ?_⟩
  · rw [hmain, ht1]
    exact ⟨_, rfl, rfl, rfl, rfl, rfl, rfl, rfl, rfl, rfl, rfl, rfl, rfl⟩
  · exact fetch_execute_swap s rom3 (fun _ => hw) (fun _ => hp)

/-- Claim C19: the theorem at a load immediate, the second ROM differing from
the first in bits 9..15 of the opcode cell and of the payload cell. -/
theorem rom_high_bits_ignored_witness :
    cpu_fetch_execute (set_rom ldi_ok_high_bits ldi_ok) =
      (cpu_fetch_execute ldi_ok).map (set_rom ldi_ok_high_bits) :=
  (rom_high_bits_ignored ldi_ok ldi_ok_high_bits (by decide)).1

/-- Claim C20, refuted as stated.  Over the ROM whose cell 0 is 0x40, the state
2^32 steps after reset has cycle count 0, not 2^32: the counter is an
`unsigned int` and has wrapped. -/
theorem self_branch_count_wraps :
    ∃ r s, cpu_reset self_branch = .ok r ∧ cpu_steps (2 ^ 32) r = .ok s ∧
      s.hlt = 0 ∧ s.ip = 0 ∧ s.clk = 0 ∧ s.clk ≠ 2 ^ 32 :=
  ⟨reset_of_blank (rom_of [0x40]), _, rfl,
    self_branch_steps (2 ^ 32) (reset_of_blank (rom_of [0x40])) rfl rfl (by decide),
    rfl, rfl, rfl, by decide⟩

/-- Claim C20, amended.  For every state before reset over a ROM whose cell 0 is
0x40, and for every n, the state n fetch-execute steps after reset has `hlt`
= 0, instruction pointer 0 and cycle count n modulo 2^32 (n itself while n is
below 2^32), and the run-until-halted loop of `main` is still running after n
turns: the machine never halts. -/
theorem self_branch_never_halts (s0 : cpu) (n : Nat) (h : s0.code_rom 0 = 0x40) :
    ∃ r, cpu_reset s0 = .ok r ∧
      (∃ s, cpu_steps n r = .ok s ∧ s.hlt = 0 ∧ s.ip = 0 ∧ s.clk = n % UINT_MOD ∧
        (n < UINT_MOD → s.clk = n)) ∧
      main_loop n r = .ok none := by
  obtain ⟨r, hr, e1, e2, e3, e4, -⟩ := reset_fields s0
  have hrom : r.code_rom 0 = 0x40 := by rw [e4, h]
  have hclk : r.clk < UINT_MOD := by rw [e2]; decide
  refine ⟨r, hr, ⟨_, self_branch_steps n r e3 hrom hclk, e1, e3, ?_, ?_⟩,
    self_branch_loop n r e3 hrom e1 hclk⟩
  · show (r.clk + n) % UINT_MOD = n % UINT_MOD
    rw [e2, Nat.zero_add]
  · intro hn
    show (r.clk + n) % UINT_MOD = n
    rw [e2, Nat.zero_add]
    exact Nat.mod_eq_of_lt hn

/-- Claim C20, amended: the theorem at the blank state over the ROM [0x40], five
steps after reset. -/
theorem self_branch_never_halts_witness :
    ∃ r, cpu_reset self_branch = .ok r ∧
      (∃ s, cpu_steps 5 r = .ok s ∧ s.hlt = 0 ∧ s.ip = 0 ∧ s.clk = 5 % UINT_MOD ∧
        (5 < UINT_MOD → s.clk = 5)) ∧
      main_loop 5 r = .ok none :=
  self_branch_never_halts self_branch 5 rfl

end Eric
